import Mathlib

/-!
# Verification of the ng-morph template analysis core

Shallow embedding of the CSS selector engine (`src/core/selector.ts`) and the
template/expression query engine (`src/core/template.ts`, `src/ast/types.ts`)
of the ng-morph repository, together with proofs settling the frozen claims
about its specification.

Conventions used throughout:
* JavaScript strings are Lean `String`s; `toLowerCase()` is modelled by
  `jsLowerChar`/`jsToLower`, which implements exactly the basic-latin case
  mapping (the inputs produced by the selector grammar are ASCII).
* The tokenizing loop `SELECTOR_REGEXP.exec` is modelled by `matchAt`/`lexAux`:
  at each position the regular expression's alternatives are tried in order,
  and a position where no alternative matches is skipped, exactly as a global
  `exec` loop does.  Fuel recursion (`lexAux`, `traverseFuel`) is used for
  loops whose termination is by consumed input, with the fuel chosen large
  enough; lemmas below discharge fuel-independence.
* `Except String` models thrown exceptions of type `Error`.
-/

set_option maxHeartbeats 1000000

namespace NgMorph

/-! ## Character classes of `SELECTOR_REGEXP` (selector.ts lines 4-12)

JavaScript's `\w` is `[A-Za-z0-9_]`, `\s` contains the ASCII whitespace
characters (we model the ASCII subset).  All classes are expressed through
`Char.toNat` to keep the case-mapping arithmetic elementary. -/

/-- JS `\w`: `[A-Za-z0-9_]` (`_` is code point 95). -/
def isWordChar (c : Char) : Bool :=
  (65 ≤ c.toNat && c.toNat ≤ 90) || (97 ≤ c.toNat && c.toNat ≤ 122) ||
    (48 ≤ c.toNat && c.toNat ≤ 57) || c.toNat = 95

/-- The class `[-\w]` used for tags, class names and id names (`-` is 45). -/
def isTagChar (c : Char) : Bool := isWordChar c || c.toNat = 45

/-- The class `[-.\w*\\$]` of attribute-name characters
(`.` 46, `*` 42, `\` 92, `$` 36). -/
def isAttrNameChar (c : Char) : Bool :=
  isTagChar c || c.toNat = 46 || c.toNat = 42 || c.toNat = 92 || c.toNat = 36

/-- The class `[^\]"']` of attribute-value characters (`]` 93, `"` 34, `'` 39). -/
def isValueChar (c : Char) : Bool :=
  !(c.toNat = 93 || c.toNat = 34 || c.toNat = 39)

/-- ASCII subset of JS `\s`. -/
def isWsChar (c : Char) : Bool :=
  c.toNat = 32 || c.toNat = 9 || c.toNat = 10 || c.toNat = 13 ||
    c.toNat = 11 || c.toNat = 12

/-- The quote class `["']` of group 5 of the regular expression. -/
def isQuoteChar (c : Char) : Bool := c.toNat = 34 || c.toNat = 39

/-! ## The JS case mapping (`String.prototype.toLowerCase`, ASCII part) -/

/-- Lower-case a single character: the basic-latin mapping `A-Z → a-z`. -/
def jsLowerChar (c : Char) : Char :=
  if 65 ≤ c.toNat ∧ c.toNat ≤ 90 then Char.ofNat (c.toNat + 32) else c

/-- Model of `String.prototype.toLowerCase` (ASCII part). -/
def jsToLower (s : String) : String := ⟨s.data.map jsLowerChar⟩

/-! ## Tokens of the selector grammar

One token per alternative of `SELECTOR_REGEXP`: `:not(`, a possibly prefixed
bare word (groups 2/3), an attribute (groups 4-6), `)`, and `,`. -/

inductive SelToken where
  | notOpen
  | tag (pfx : Option Char) (body : String)
  | attr (name : String) (value : String)
  | rparen
  | comma
deriving DecidableEq, Repr

/-- Continuation of alternative 1: after a `:` the literal `not(` must follow. -/
def matchNot (rest : List Char) : Option (SelToken × List Char) :=
  match rest with
  | 'n' :: 'o' :: 't' :: '(' :: r => some (.notOpen, r)
  | _ => none

/-- Alternative 2 with a `.`/`#` prefix: the prefix matches only if at least
one `[-\w]` character follows (otherwise the regex backtracks to an empty
prefix and fails on the prefix character itself). -/
def matchPrefTag (c : Char) (rest : List Char) : Option (SelToken × List Char) :=
  if (rest.takeWhile isTagChar).isEmpty then none
  else some (.tag (some c) ⟨rest.takeWhile isTagChar⟩, rest.dropWhile isTagChar)

/-- Alternative 3 after the opening `[`: a non-empty name run, then either a
direct `]`, or `=` followed by an optionally quoted value run and `]`.
The backtracking analysis of `\[([-.\w*\\$]+)(?:=(["']?)([^\]"']*)\5)?\]`
collapses to exactly these cases because the value class excludes both
quotes and `]`. -/
def matchAttr (rest : List Char) : Option (SelToken × List Char) :=
  if (rest.takeWhile isAttrNameChar).isEmpty then none
  else
    match rest.dropWhile isAttrNameChar with
    | ']' :: r2 => some (.attr ⟨rest.takeWhile isAttrNameChar⟩ "", r2)
    | '=' :: q :: r3 =>
      if isQuoteChar q then
        match r3.dropWhile isValueChar with
        | q2 :: ']' :: r5 =>
          if q2 = q then
            some (.attr ⟨rest.takeWhile isAttrNameChar⟩ ⟨r3.takeWhile isValueChar⟩, r5)
          else none
        | _ => none
      else
        match (q :: r3).dropWhile isValueChar with
        | ']' :: r5 =>
          some (.attr ⟨rest.takeWhile isAttrNameChar⟩ ⟨(q :: r3).takeWhile isValueChar⟩, r5)
        | _ => none
    | _ => none

/-- Alternative 5, `\s*,\s*`: a whitespace run, a comma, a whitespace run. -/
def matchComma (s : List Char) : Option (SelToken × List Char) :=
  match s.dropWhile isWsChar with
  | ',' :: r2 => some (.comma, r2.dropWhile isWsChar)
  | _ => none

/-- One `exec` attempt of `SELECTOR_REGEXP` at the current position, trying the
alternatives in their order.  The leading characters of the five alternatives
are pairwise disjoint, so dispatching on the first character is faithful. -/
def matchAt : List Char → Option (SelToken × List Char)
  | [] => none
  | c :: rest =>
    if c = ':' then matchNot rest
    else if c = '.' || c = '#' then matchPrefTag c rest
    else if isTagChar c then
      some (.tag none ⟨c :: rest.takeWhile isTagChar⟩, rest.dropWhile isTagChar)
    else if c = '[' then matchAttr rest
    else if c = ')' then some (.rparen, rest)
    else matchComma (c :: rest)

/-- The `exec` loop: find the next match, skipping characters where no
alternative applies.  `fuel` dominates the input length. -/
def lexAux : Nat → List Char → List SelToken
  | 0, _ => []
  | _, [] => []
  | fuel + 1, c :: rest =>
    match matchAt (c :: rest) with
    | some (t, r) => t :: lexAux fuel r
    | none => lexAux fuel rest

/-- All tokens of a selector string, in order. -/
def lexSel (s : String) : List SelToken := lexAux s.data.length s.data

/-! ## `CssSelector` (selector.ts lines 17-159) -/

/-- `element`, `classNames`, `attrs` (flat name/value list, as in the source)
and `notSelectors`. -/
inductive CssSelector where
  | mk (element : Option String) (classNames : List String) (attrs : List String)
      (notSelectors : List CssSelector)

def CssSelector.element : CssSelector → Option String
  | ⟨e, _, _, _⟩ => e

def CssSelector.classNames : CssSelector → List String
  | ⟨_, c, _, _⟩ => c

def CssSelector.attrs : CssSelector → List String
  | ⟨_, _, a, _⟩ => a

def CssSelector.notSelectors : CssSelector → List CssSelector
  | ⟨_, _, _, n⟩ => n

/-- `new CssSelector()`. -/
def CssSelector.empty : CssSelector := ⟨none, [], [], []⟩

/-- `setElement` (line 79). -/
def CssSelector.setElement : CssSelector → String → CssSelector
  | ⟨_, cls, ats, nots⟩, el => ⟨some el, cls, ats, nots⟩

/-- `addClassName` (line 83): the class name is lower-cased. -/
def CssSelector.addClassName : CssSelector → String → CssSelector
  | ⟨el, cls, ats, nots⟩, n => ⟨el, cls ++ [jsToLower n], ats, nots⟩

/-- `addAttribute` (line 87): pushes the name as given and the lower-cased
value. -/
def CssSelector.addAttribute : CssSelector → String → String → CssSelector
  | ⟨el, cls, ats, nots⟩, n, v => ⟨el, cls, ats ++ [n, jsToLower v], nots⟩

/-- Append a completed `:not(...)` sub-selector. -/
def CssSelector.pushNot : CssSelector → CssSelector → CssSelector
  | ⟨el, cls, ats, nots⟩, sub => ⟨el, cls, ats, nots ++ [sub]⟩

/-- Handling of a bare-word token (parse lines 44-54): `#` registers an `id`
attribute, `.` a class name, no prefix sets the element tag. -/
def applyTag : CssSelector → Option Char → String → CssSelector
  | sel, some c, body =>
    if c = '#' then sel.addAttribute "id" body
    else if c = '.' then sel.addClassName body
    else sel.setElement (⟨[c]⟩ ++ body)
  | sel, none, body => sel.setElement body

/-- The parse loop (lines 34-73) over the token stream.  `top` is the selector
currently written to at top level (`cssSelector` in the source), `sub` the
open `:not(...)` group if one is open (`current` aliases it exactly when
`inNot` holds); because the source pushes the aliased group object eagerly and
keeps mutating it, an end of input with an open group still keeps the group,
which `parseTokens` reproduces by appending `sub` when the tokens run out. -/
def parseTokens : List SelToken → List CssSelector → CssSelector → Option CssSelector →
    Except String (List CssSelector)
  | [], results, top, sub =>
    .ok (results ++ [(match sub with | some s => top.pushNot s | none => top)])
  | t :: ts, results, top, sub =>
    match t, sub with
    | .notOpen, some _ => .error "Nesting :not in a selector is not allowed"
    | .notOpen, none => parseTokens ts results top (some .empty)
    | .tag p b, some s => parseTokens ts results top (some (applyTag s p b))
    | .tag p b, none => parseTokens ts results (applyTag top p b) none
    | .attr n v, some s => parseTokens ts results top (some (s.addAttribute n v))
    | .attr n v, none => parseTokens ts results (top.addAttribute n v) none
    | .rparen, some s => parseTokens ts results (top.pushNot s) none
    | .rparen, none => parseTokens ts results top none
    | .comma, some _ => .error "Multiple selectors in :not are not supported"
    | .comma, none => parseTokens ts (results ++ [top]) .empty none

/-- `CssSelector.parse` (lines 26-77). -/
def CssSelector.parse (s : String) : Except String (List CssSelector) :=
  parseTokens (lexSel s) [] .empty none

/-! ## `CssSelector.matches` (lines 94-139) -/

/-- The element-like record the matcher receives. -/
structure ElementRec where
  tagName : Option String
  classList : List String
  attributes : List (String × String)

/-- `new Map(entries).get(k)`: the last entry for a key wins. -/
def mapGet (l : List (String × String)) (k : String) : Option String :=
  l.foldl (fun acc p => if p.1 = k then some p.2 else acc) none

/-- Lines 100-102: an empty `this.element` is falsy and skips the check; a
missing or empty `tagName` fails it; otherwise compare lower-cased. -/
def tagCheck (el : Option String) (tn : Option String) : Bool :=
  match el with
  | none => true
  | some e =>
    if e = "" then true
    else
      match tn with
      | none => false
      | some t => if t = "" then false else jsToLower e = jsToLower t

/-- Lines 105-110: every required class must be in the lower-cased class set
(the stored class names are used as-is). -/
def classCheck (cls : List String) (elCls : List String) : Bool :=
  cls.all (fun c => (elCls.map jsToLower).contains c)

/-- Pair up the flat `attrs` list the way the `i += 2` loop reads it (a
trailing unpaired name reads an `undefined`, i.e. falsy, value). -/
def attrPairs : List String → List (String × String)
  | [] => []
  | [n] => [(n, "")]
  | n :: v :: rest => (n, v) :: attrPairs rest

/-- Lines 113-129: each required attribute name (lower-cased) must be present
in the lower-cased element attribute map, and a non-empty (truthy) required
value must equal the element's value. -/
def attrCheck (ats : List String) (elAttrs : List (String × String)) : Bool :=
  let m := elAttrs.map (fun p => (jsToLower p.1, jsToLower p.2))
  (attrPairs ats).all (fun p =>
    match mapGet m (jsToLower p.1) with
    | none => false
    | some ev => p.2 = "" || ev = p.2)

mutual

/-- `matches` (lines 94-139): the conjunction of the tag, class, attribute and
`:not` checks; the source's early `return false`s are value-equivalent to
`&&`. -/
def CssSelector.matches : CssSelector → ElementRec → Bool
  | ⟨el, cls, ats, nots⟩, e =>
    tagCheck el e.tagName && classCheck cls e.classList &&
      attrCheck ats e.attributes && !(anyMatches nots e)

/-- `this.notSelectors.some(ns => ns.matches(element))` (line 133). -/
def anyMatches : List CssSelector → ElementRec → Bool
  | [], _ => false
  | s :: rest, e => s.matches e || anyMatches rest e

end

/-! ## `CssSelector.toString` (lines 141-159) -/

/-- `this.classNames.forEach(klass => res += "." + klass)`. -/
def classesStr (cls : List String) : String :=
  cls.foldl (fun r k => r ++ "." ++ k) ""

/-- The `i += 2` serialization loop over `attrs`: `[name]` for a falsy value,
`[name=value]` otherwise. -/
def attrsStr : List String → String
  | [] => ""
  | [n] => "[" ++ n ++ "]"
  | n :: v :: rest =>
    "[" ++ n ++ (if v = "" then "" else "=" ++ v) ++ "]" ++ attrsStr rest

mutual

/-- `toString` (lines 141-159). -/
def CssSelector.toStr : CssSelector → String
  | ⟨el, cls, ats, nots⟩ => el.getD "" ++ classesStr cls ++ attrsStr ats ++ notsStr nots

/-- `this.notSelectors.forEach(ns => res += ":not(" + ns + ")")`. -/
def notsStr : List CssSelector → String
  | [] => ""
  | s :: rest => ":not(" ++ s.toStr ++ ")" ++ notsStr rest

end

/-! ## Expression AST (`@angular/compiler` expression trees, §3/§6 of the spec)

The expression parser is an out-of-scope external collaborator: the core
receives already-built trees of `PropertyRead`, `Call`, `ImplicitReceiver`,
`LiteralPrimitive`, … nodes, optionally wrapped in an `ASTWithSource` that
carries the source text.  Only the variants the core dispatches on are
distinguished; every other variant behaves as a leaf, exactly as the core's
`instanceof` chains treat it. -/

inductive ExprAst where
  | implicitReceiver
  | propertyRead (receiver : ExprAst) (name : String)
  | call (receiver : ExprAst) (args : List ExprAst)
  | literalPrimitive (value : String)

def joinComma : List String → String
  | [] => ""
  | [s] => s
  | s :: rest => s ++ ", " ++ joinComma rest

mutual

/-- Modelled from the spec: the external expression language's stringification
of a parsed node renders the expression's textual form (`$event`, `save(x)`,
`user.active`, …). -/
def exprToString : ExprAst → String
  | .implicitReceiver => ""
  | .propertyRead r n =>
    (match r with
     | .implicitReceiver => n
     | r => exprToString r ++ "." ++ n)
  | .call r args => exprToString r ++ "(" ++ joinComma (exprListStrings args) ++ ")"
  | .literalPrimitive v => v

def exprListStrings : List ExprAst → List String
  | [] => []
  | a :: rest => exprToString a :: exprListStrings rest

end

/-- `ASTWithSource`: a wrapped expression together with its source text
(`source : string | null` in the external library). -/
structure AstWithSource where
  ast : ExprAst
  source : Option String

/-- Modelled from the spec: `ASTWithSource#toString()` renders the wrapped
expression's source text. -/
def AstWithSource.str (a : AstWithSource) : String := a.source.getD ""

/-- An expression-valued field of a template node: the core checks
`instanceof ASTWithSource` on these, so the model distinguishes wrapped from
bare expression nodes. -/
inductive BindingValue where
  | withSource (a : AstWithSource)
  | plain (ast : ExprAst)

/-- `toString()` of a binding value (source text when wrapped). -/
def BindingValue.str : BindingValue → String
  | .withSource a => a.str
  | .plain e => exprToString e

/-! ## `Template.traverseAST` (template.ts lines 555-564) and the
identifier-dependency collection -/

mutual

/-- The visit sequence of `traverseAST`: the node itself first, then for a
call each argument in order followed by the receiver, for a property read its
receiver; every other variant is a leaf. -/
def traverseAST : ExprAst → List ExprAst
  | .call r args => .call r args :: (traverseArgs args ++ traverseAST r)
  | .propertyRead r n => .propertyRead r n :: traverseAST r
  | .implicitReceiver => [.implicitReceiver]
  | .literalPrimitive v => [.literalPrimitive v]

def traverseArgs : List ExprAst → List ExprAst
  | [] => []
  | a :: rest => traverseAST a ++ traverseArgs rest

end

/-- The collection test used by all analyzers: a `PropertyRead` whose receiver
is the `ImplicitReceiver` contributes its name. -/
def implicitReadName : ExprAst → Option String
  | .propertyRead .implicitReceiver n => some n
  | _ => none

/-- The `referencedProperties` push pattern shared by `analyzePropertyBinding`
and the four `analyze*Expression` helpers: visiting with `traverseAST` and
pushing every implicit-receiver property-read name in visit order. -/
def collectRefs (e : ExprAst) : List String :=
  (traverseAST e).filterMap implicitReadName

/-! ## Template node tree (`@angular/compiler` template AST, re-exported by
`src/ast/types.ts`)

The externally parsed node tree.  `IfBranch` and `SwitchCase` model
`TmplAstIfBlockBranch`/`TmplAstSwitchBlockCase` contents; a `SwitchBlockCase`
is additionally a node variant (`switchCase`) because the core's
`getControlFlowExpressions` dispatches `instanceof TmplAstSwitchBlockCase` on
visited nodes.  `boundAttrNode`/`boundEventNode` are the `TmplAstBoundAttribute`
and `TmplAstBoundEvent` node variants tested by `is.propertyBinding` and
`is.eventBinding`. -/

structure TextAttr where
  name : String
  value : String

structure BoundAttr where
  name : String
  value : BindingValue
  span : Nat

structure BoundEvent where
  name : String
  handler : BindingValue
  span : Nat

mutual
inductive TmplNode where
  | element (tag : String) (attributes : List TextAttr) (inputs : List BoundAttr)
      (outputs : List BoundEvent) (children : List TmplNode)
  | template (tag : String) (attributes : List TextAttr) (inputs : List BoundAttr)
      (outputs : List BoundEvent) (children : List TmplNode)
  | text (value : String)
  | boundText (value : BindingValue) (span : Nat)
  | boundAttrNode (a : BoundAttr)
  | boundEventNode (e : BoundEvent)
  | ifBlock (branches : List IfBranch) (span : Nat)
  | forBlock (expression : BindingValue) (children : List TmplNode)
      (emptyChildren : List TmplNode) (span : Nat)
  | switchBlock (expression : BindingValue) (cases : List SwitchCase) (span : Nat)
  | switchCase (c : SwitchCase)
  | deferBlock (children placeholderChildren loadingChildren errorChildren : List TmplNode)
      (span : Nat)

inductive IfBranch where
  | mk (expression : Option BindingValue) (children : List TmplNode)

inductive SwitchCase where
  | mk (expression : Option BindingValue) (children : List TmplNode) (span : Nat)
end

def IfBranch.expression : IfBranch → Option BindingValue
  | ⟨e, _⟩ => e

def IfBranch.children : IfBranch → List TmplNode
  | ⟨_, ch⟩ => ch

def SwitchCase.expression : SwitchCase → Option BindingValue
  | ⟨e, _, _⟩ => e

def SwitchCase.children : SwitchCase → List TmplNode
  | ⟨_, ch, _⟩ => ch

def SwitchCase.span : SwitchCase → Nat
  | ⟨_, _, sp⟩ => sp

/-! Sizes, used as traversal fuel and as termination measures. -/

mutual
def nodeW : TmplNode → Nat
  | .element _ _ _ _ ch => 1 + listW ch
  | .template _ _ _ _ ch => 1 + listW ch
  | .text _ => 1
  | .boundText _ _ => 1
  | .boundAttrNode _ => 1
  | .boundEventNode _ => 1
  | .ifBlock brs _ => 1 + branchesW brs
  | .forBlock _ ch ech _ => 1 + listW ch + listW ech
  | .switchBlock _ cs _ => 1 + casesW cs
  | .switchCase c => 1 + caseW c
  | .deferBlock a b c d _ => 1 + listW a + listW b + listW c + listW d

def listW : List TmplNode → Nat
  | [] => 0
  | n :: r => nodeW n + listW r

def branchesW : List IfBranch → Nat
  | [] => 0
  | b :: r => branchW b + branchesW r

def branchW : IfBranch → Nat
  | ⟨_, ch⟩ => 1 + listW ch

def casesW : List SwitchCase → Nat
  | [] => 0
  | c :: r => caseW c + casesW r

def caseW : SwitchCase → Nat
  | ⟨_, ch, _⟩ => 1 + listW ch
end

/-! ## `Template.traverseNodes` (template.ts lines 371-395) -/

/-- The children pushed onto the work stack for a visited node, per the
`is.element / is.template / is.ifBlock / is.forBlock / is.switchBlock` chain:
if-block branches contribute the concatenation of their children, a switch
block the concatenation of its cases' children (the case nodes themselves are
never pushed), and every other variant — including `deferBlock` and the
for-block's `empty` branch — contributes nothing.  (The source's
runtime-name-prefix type guards cannot fire for variants that the external
parser only ever places inside block records, so dispatching on the exact
variant is observationally faithful.) -/
def childrenOf : TmplNode → List TmplNode
  | .element _ _ _ _ ch => ch
  | .template _ _ _ _ ch => ch
  | .ifBlock brs _ => brs.flatMap IfBranch.children
  | .forBlock _ ch _ _ => ch
  | .switchBlock _ cs _ => cs.flatMap SwitchCase.children
  | _ => []

/-- The stack loop of `traverseNodes`, emitting nodes in visit order.  The
source pops from the end of `stack` and pushes children with
`stack.push(...children)`; representing the stack with its top at the head,
popping is taking the head and pushing is prepending the reversed child
list. -/
def traverseFuel : Nat → List TmplNode → List TmplNode
  | 0, _ => []
  | _, [] => []
  | fuel + 1, n :: rest => n :: traverseFuel fuel ((childrenOf n).reverse ++ rest)

namespace Template

/-- `traverseNodes(nodes, visitor)`: the list of nodes passed to the visitor,
in visitation order.  The initial stack `[...nodes]` has the *last* root on
top. -/
def traverseNodes (nodes : List TmplNode) : List TmplNode :=
  traverseFuel (listW nodes) nodes.reverse

end Template

/-! ## Result records (template.ts lines 187-213) -/

inductive CFType where
  | cfIf | cfFor | cfSwitch | cfCase
deriving DecidableEq, Repr

/-- `ControlFlowExpression` (lines 208-213). -/
structure ControlFlowExpression where
  type : CFType
  expression : String
  referencedProperties : List String
  sourceSpan : Nat
deriving DecidableEq, Repr

/-- `EventHandler` (lines 193-198). -/
structure EventHandler where
  name : String
  arguments : List String
  fullText : String
  sourceSpan : Nat
deriving DecidableEq, Repr

/-- `PropertyBinding` (lines 200-206). -/
structure PropertyBinding where
  name : String
  value : String
  isLiteral : Bool
  referencedProperties : List String
  sourceSpan : Nat
deriving DecidableEq, Repr

/-! ## The analyzers (template.ts lines 500-564, 607-685) -/

namespace Template

/-- `analyzeEventHandler` (lines 500-524): `null` for an unwrapped handler;
otherwise the method name comes from a `Call` whose receiver is a
`PropertyRead` or from a bare `PropertyRead`, and the argument list is
stringified for *every* `Call` (it is assigned outside the receiver test). -/
def analyzeEventHandler (ev : BoundEvent) : Option EventHandler :=
  match ev.handler with
  | .plain _ => none
  | .withSource a =>
    let name :=
      match a.ast with
      | .call (.propertyRead _ n) _ => n
      | .propertyRead _ n => n
      | _ => ""
    let args :=
      match a.ast with
      | .call _ as => as.map exprToString
      | _ => []
    some { name := name, arguments := args, fullText := a.str, sourceSpan := ev.span }

/-- `analyzePropertyBinding` (lines 529-550). -/
def analyzePropertyBinding (b : BoundAttr) : Option PropertyBinding :=
  match b.value with
  | .plain _ => none
  | .withSource a =>
    some { name := b.name
         , value := a.str
         , isLiteral := (match a.ast with | .literalPrimitive _ => true | _ => false)
         , referencedProperties := collectRefs a.ast
         , sourceSpan := b.span }

end Template

/-- The guarded dependency collection of the `analyze*Expression` helpers:
references are collected only `if (expr instanceof ASTWithSource)`. -/
def cfRefs : Option BindingValue → List String
  | some (.withSource a) => collectRefs a.ast
  | _ => []

/-- `expr?.toString() || ''` of the `analyze*Expression` helpers. -/
def cfText : Option BindingValue → String
  | some v => v.str
  | none => ""

namespace Template

/-- `analyzeIfExpression` (lines 607-625): the *first* branch's condition. -/
def analyzeIfExpression (brs : List IfBranch) (sp : Nat) : ControlFlowExpression :=
  let expr : Option BindingValue :=
    match brs.head? with
    | some br => br.expression
    | none => none
  { type := .cfIf, expression := cfText expr, referencedProperties := cfRefs expr
  , sourceSpan := sp }

/-- `analyzeForExpression` (lines 627-645). -/
def analyzeForExpression (e : BindingValue) (sp : Nat) : ControlFlowExpression :=
  { type := .cfFor, expression := cfText (some e), referencedProperties := cfRefs (some e)
  , sourceSpan := sp }

/-- `analyzeSwitchExpression` (lines 647-665). -/
def analyzeSwitchExpression (e : BindingValue) (sp : Nat) : ControlFlowExpression :=
  { type := .cfSwitch, expression := cfText (some e), referencedProperties := cfRefs (some e)
  , sourceSpan := sp }

/-- `analyzeCaseExpression` (lines 667-685): a `@default` case has a `null`
expression. -/
def analyzeCaseExpression (e : Option BindingValue) (sp : Nat) : ControlFlowExpression :=
  { type := .cfCase, expression := cfText e, referencedProperties := cfRefs e
  , sourceSpan := sp }

end Template

/-- The `instanceof` dispatch of `getControlFlowExpressions` (lines 573-586). -/
def cfOf : TmplNode → Option ControlFlowExpression
  | .ifBlock brs sp => some (Template.analyzeIfExpression brs sp)
  | .forBlock e _ _ sp => some (Template.analyzeForExpression e sp)
  | .switchBlock e _ sp => some (Template.analyzeSwitchExpression e sp)
  | .switchCase c => some (Template.analyzeCaseExpression c.expression c.span)
  | _ => none

/-- `is.element` on a visited node. -/
def isElementNode : TmplNode → Bool
  | .element _ _ _ _ _ => true
  | _ => false

/-- `is.boundText` on a visited node. -/
def isBoundTextNode : TmplNode → Bool
  | .boundText _ _ => true
  | _ => false

/-- `is.deferBlock` / `instanceof TmplAstDeferredBlock`. -/
def isDeferBlock : TmplNode → Bool
  | .deferBlock _ _ _ _ _ => true
  | _ => false

/-- The element fields used by `matchesSelector` (lines 400-429). -/
def elementParts : TmplNode → Option (String × List TextAttr × List BoundAttr)
  | .element t a i _ _ => some (t, a, i)
  | _ => none

/-- Split a character list at every whitespace character (empty pieces
included), as `String.prototype.split(/\s+/)` does before the `filter(Boolean)`
drops the empties. -/
def splitEachWs (l : List Char) : List (List Char) :=
  l.foldr (fun c acc =>
    if isWsChar c then [] :: acc
    else
      match acc with
      | [] => [[c]]
      | p :: ps => (c :: p) :: ps) [[]]

/-- `value.split(/\s+/).filter(Boolean)`. -/
def classListOf (v : String) : List String :=
  ((splitEachWs v.data).filter (fun p => p ≠ [])).map (fun p => (⟨p⟩ : String))

/-- The `elementInfo` record built by `matchesSelector`: tag name, class list
from the static `class` attribute (whitespace-split, empties dropped), and
attributes from the static attributes plus the input bindings (an input's
value contributes its source text when wrapped, else the empty string). -/
def elementInfoOf (tag : String) (attrs : List TextAttr) (inputs : List BoundAttr) :
    ElementRec :=
  { tagName := some tag
  , classList :=
      match attrs.find? (fun a => a.name = "class") with
      | some a => classListOf a.value
      | none => []
  , attributes :=
      attrs.map (fun a => (a.name, a.value)) ++
        inputs.map (fun i =>
          (i.name, match i.value with | .withSource a => a.str | .plain _ => "")) }

/-- Insertion into the insertion-ordered string `Set` of
`getBindingDependencies`. -/
def addUniq (acc : List String) (s : String) : List String :=
  if s ∈ acc then acc else acc ++ [s]

/-- The outputs looped over by `getEventHandlers` on a visited node: the
`is.element` guard admits only element nodes. -/
def outputsOf : TmplNode → List BoundEvent
  | .element _ _ _ outs _ => outs
  | _ => []

/-- The inputs looped over by `getPropertyBindings` and
`findPropertyBindings` on a visited node. -/
def inputsOf : TmplNode → List BoundAttr
  | .element _ _ inps _ _ => inps
  | _ => []

namespace Template

/-- `findElements` (lines 268-279): the visitor parses the selector string
anew for every element node, so a malformed selector only throws once the
first element is inspected. -/
def findElements (selector : String) (nodes : List TmplNode) :
    Except String (List TmplNode) :=
  (traverseNodes nodes).foldlM (fun acc n =>
    match elementParts n with
    | some (t, a, i) => do
      let sels ← CssSelector.parse selector
      pure (if sels.any (fun s => s.matches (elementInfoOf t a i)) then acc ++ [n] else acc)
    | none => pure acc) []

/-- `findPropertyBindings` (lines 284-296). -/
def findPropertyBindings (propertyName : String) (nodes : List TmplNode) : List BoundAttr :=
  (traverseNodes nodes).foldl (fun acc n =>
    acc ++ (inputsOf n).filter (fun i => i.name = propertyName)) []

/-- `findEventBindings` (lines 301-313). -/
def findEventBindings (eventName : String) (nodes : List TmplNode) : List BoundEvent :=
  (traverseNodes nodes).foldl (fun acc n =>
    acc ++ (outputsOf n).filter (fun o => o.name = eventName)) []

/-- `findInterpolations` (lines 318-329). -/
def findInterpolations (nodes : List TmplNode) : List TmplNode :=
  (traverseNodes nodes).foldl (fun acc n =>
    acc ++ (if isBoundTextNode n then [n] else [])) []

/-- `getBindingDependencies` (lines 334-356): one visitor with three
independent `if`s adding to an insertion-ordered `Set`, returned as a list. -/
def getBindingDependencies (nodes : List TmplNode) : List String :=
  (traverseNodes nodes).foldl (fun acc n =>
    let acc1 := match n with | .boundAttrNode a => addUniq acc a.name | _ => acc
    let acc2 := match n with | .boundEventNode ev => addUniq acc1 ev.handler.str | _ => acc1
    match n with | .boundText v _ => addUniq acc2 v.str | _ => acc2) []

/-- `getEventHandlers` (lines 434-450): for each visited element node, each
output whose analysis succeeds contributes a record. -/
def getEventHandlers (nodes : List TmplNode) : List EventHandler :=
  (traverseNodes nodes).foldl (fun acc n =>
    acc ++ (outputsOf n).filterMap analyzeEventHandler) []

/-- `getPropertyBindings` (lines 455-471). -/
def getPropertyBindings (nodes : List TmplNode) : List PropertyBinding :=
  (traverseNodes nodes).foldl (fun acc n =>
    acc ++ (inputsOf n).filterMap analyzePropertyBinding) []

/-- `getControlFlowExpressions` (lines 569-589): the record of the `instanceof`
dispatch, if any, is pushed. -/
def getControlFlowExpressions (nodes : List TmplNode) : List ControlFlowExpression :=
  (traverseNodes nodes).foldl (fun acc n => acc ++ (cfOf n).toList) []

end Template

/-! ## String-level facts -/

/-- Non-emptiness of a JS string. -/
def strNE (s : String) : Bool := !s.data.isEmpty

/-- All characters of a string are in a class. -/
def strAll (p : Char → Bool) (s : String) : Bool := s.data.all p

/-- A string is fixed by `toLowerCase()`. -/
def lowerInvB (s : String) : Bool := jsToLower s == s

/-! ## Well-formedness of the selectors produced by `parse` -/

/-- The prefixes group 3 of the regular expression can produce. -/
def pfxOK : Option Char → Bool
  | none => true
  | some c => c = '.' || c = '#'

/-- Shape invariant of the tokens produced by the lexer. -/
def tokOK : SelToken → Bool
  | .tag p b => pfxOK p && strNE b && strAll isTagChar b
  | .attr n v => strNE n && strAll isAttrNameChar n && strAll isValueChar v
  | _ => true

def elemOK : Option String → Bool
  | none => true
  | some e => strNE e && strAll isTagChar e

def classOK (c : String) : Bool := strNE c && strAll isTagChar c && lowerInvB c

/-- `attrs` has even length (the parser always pushes name/value pairs). -/
def evenAttrs : List String → Bool
  | [] => true
  | [_] => false
  | _ :: _ :: r => evenAttrs r

def attrPairOK (p : String × String) : Bool :=
  strNE p.1 && strAll isAttrNameChar p.1 && strAll isValueChar p.2 && lowerInvB p.2

/-- Invariant of the element/class/attribute parts of a parsed selector. -/
def baseOK (sel : CssSelector) : Bool :=
  elemOK sel.element && sel.classNames.all classOK && evenAttrs sel.attrs &&
    (attrPairs sel.attrs).all attrPairOK

/-- Invariant of a parsed selector: well-formed parts, and every `:not`
entry well-formed with no further nesting. -/
def wfSel (sel : CssSelector) : Bool :=
  baseOK sel && sel.notSelectors.all (fun t => baseOK t && t.notSelectors.isEmpty)

/-- The lower-case parts of a parsed selector: all class names and all
attribute *values* (attribute names are not normalized at parse time). -/
def lowerPartsB (sel : CssSelector) : Bool :=
  sel.classNames.all lowerInvB && (attrPairs sel.attrs).all (fun p => lowerInvB p.2)

/-- The error condition of the left-to-right token scan: tracking only the
"a negated group is open" bit, fail on `:not(` while open and on `,` while
open. -/
def scanErr : Bool → List SelToken → Option String
  | _, [] => none
  | inNot, .notOpen :: ts =>
    if inNot then some "Nesting :not in a selector is not allowed" else scanErr true ts
  | _, .rparen :: ts => scanErr false ts
  | inNot, .comma :: ts =>
    if inNot then some "Multiple selectors in :not are not supported" else scanErr false ts
  | inNot, .tag _ _ :: ts => scanErr inNot ts
  | inNot, .attr _ _ :: ts => scanErr inNot ts

/-- The token stream of a character list (fuel instantiated to the length). -/
def lexList (l : List Char) : List SelToken := lexAux l.length l

/-- The head of the remainder (if any) fails the class `p`, so a greedy run
stops exactly at the chunk boundary. -/
def headFails (p : Char → Bool) : List Char → Prop
  | [] => True
  | c :: _ => p c = false

/-! ## Token lists of serialized selectors -/

def elemToks : Option String → List SelToken
  | none => []
  | some e => [.tag none e]

def classToks (cls : List String) : List SelToken :=
  cls.map (fun c => .tag (some '.') c)

def attrToks : List String → List SelToken
  | [] => []
  | [n] => [.attr n ""]
  | n :: v :: r => .attr n v :: attrToks r

/-- The tokens of the element/class/attribute part of a serialized selector. -/
def baseToks (sel : CssSelector) : List SelToken :=
  elemToks sel.element ++ classToks sel.classNames ++ attrToks sel.attrs

/-- The full token list of a serialized well-formed selector. -/
def tokListOf (sel : CssSelector) : List SelToken :=
  baseToks sel ++
    sel.notSelectors.flatMap (fun t => .notOpen :: (baseToks t ++ [.rparen]))

/-! ## Rebuilding a selector from its token list -/

/-- The effect of one non-structural token on the selector currently being
written. -/
def applyTok : CssSelector → SelToken → CssSelector
  | sel, .tag p b => applyTag sel p b
  | sel, .attr n v => sel.addAttribute n v
  | sel, _ => sel

def isSimpleTok : SelToken → Bool
  | .tag _ _ => true
  | .attr _ _ => true
  | _ => false

/-- The recursive description of the traversal order implemented by the
explicit stack: each node is emitted before its children, and both the roots
and each node's children are processed from the *last* to the *first*. -/
def mirrorPreL : List TmplNode → List TmplNode
  | [] => []
  | n :: r => n :: (mirrorPreL (childrenOf n).reverse ++ mirrorPreL r)
termination_by l => listW l
decreasing_by
  · have happ : ∀ (l₁ l₂ : List TmplNode), listW (l₁ ++ l₂) = listW l₁ + listW l₂ := by
      intro l₁ l₂
      induction l₁ with
      | nil => simp [listW]
      | cons m q ih => simp [listW, ih]; omega
    have hrev : listW (childrenOf n).reverse = listW (childrenOf n) := by
      generalize childrenOf n = l
      induction l with
      | nil => rfl
      | cons m q ih => simp [listW, List.reverse_cons, happ, ih]; omega
    have hbr : ∀ (brs : List IfBranch),
        listW (brs.flatMap IfBranch.children) ≤ branchesW brs := by
      intro brs
      induction brs with
      | nil => simp [listW, branchesW]
      | cons b q ih =>
        simp only [List.flatMap_cons, happ, branchesW]
        cases b with
        | mk e ch => simp [IfBranch.children, branchW]; omega
    have hcs : ∀ (cs : List SwitchCase),
        listW (cs.flatMap SwitchCase.children) ≤ casesW cs := by
      intro cs
      induction cs with
      | nil => simp [listW, casesW]
      | cons c q ih =>
        simp only [List.flatMap_cons, happ, casesW]
        cases c with
        | mk e ch sp => simp [SwitchCase.children, caseW]; omega
    have h1 : listW (childrenOf n) < nodeW n := by
      cases n <;> simp [childrenOf, nodeW, listW] <;> try omega
      case ifBlock brs sp => have := hbr brs; omega
      case switchBlock e cs sp => have := hcs cs; omega
    rw [hrev]; simp [listW]; omega
  · have h2 : 1 ≤ nodeW n := by cases n <;> simp [nodeW] <;> omega
    simp [listW]; omega

/-! ## Reachability avoiding `@defer` contents (for claim C10) -/

/-- *All* structural child nodes of a node, including the contents of a
`@defer` block's main, placeholder, loading and error regions and of a
`@for` block's `empty` branch. -/
def structChildren : TmplNode → List TmplNode
  | .element _ _ _ _ ch => ch
  | .template _ _ _ _ ch => ch
  | .ifBlock brs _ => brs.flatMap IfBranch.children
  | .forBlock _ ch ech _ => ch ++ ech
  | .switchBlock _ cs _ => cs.flatMap SwitchCase.children
  | .switchCase c => c.children
  | .deferBlock a b c d _ => a ++ b ++ c ++ d
  | _ => []

/-- A node is reachable from the roots by structural child steps none of
which passes through a `@defer` block. -/
inductive ReachableOutsideDefer (nodes : List TmplNode) : TmplNode → Prop where
  | root {x} (h : x ∈ nodes) : ReachableOutsideDefer nodes x
  | child {p x} (hp : ReachableOutsideDefer nodes p) (hd : isDeferBlock p = false)
      (hc : x ∈ structChildren p) : ReachableOutsideDefer nodes x

/-- The record pushed by each of the three `if`s of `getBindingDependencies`:
the binding *name* for a property-binding node, the stringified handler for an
event-binding node, the stringified expression for an interpolation node. -/
def depOf : TmplNode → Option String
  | .boundAttrNode a => some a.name
  | .boundEventNode ev => some ev.handler.str
  | .boundText v _ => some v.str
  | _ => none

/-! ## Absence of free-standing `SwitchBlockCase` nodes

In trees produced by the external template parser a `TmplAstSwitchBlockCase`
only ever occurs inside a `TmplAstSwitchBlock`'s `cases`, never as a root or
as an ordinary child; `listNoCase` states this shape property. -/

mutual
def nodeNoCase : TmplNode → Bool
  | .element _ _ _ _ ch => listNoCase ch
  | .template _ _ _ _ ch => listNoCase ch
  | .text _ => true
  | .boundText _ _ => true
  | .boundAttrNode _ => true
  | .boundEventNode _ => true
  | .ifBlock brs _ => branchesNoCase brs
  | .forBlock _ ch ech _ => listNoCase ch && listNoCase ech
  | .switchBlock _ cs _ => casesNoCase cs
  | .switchCase _ => false
  | .deferBlock a b c d _ => listNoCase a && listNoCase b && listNoCase c && listNoCase d

def listNoCase : List TmplNode → Bool
  | [] => true
  | n :: r => nodeNoCase n && listNoCase r

def branchesNoCase : List IfBranch → Bool
  | [] => true
  | b :: r => branchNoCase b && branchesNoCase r

def branchNoCase : IfBranch → Bool
  | ⟨_, ch⟩ => listNoCase ch

def casesNoCase : List SwitchCase → Bool
  | [] => true
  | c :: r => caseNoCase c && casesNoCase r

def caseNoCase : SwitchCase → Bool
  | ⟨_, ch, _⟩ => listNoCase ch
end

/-! ## Spec-side description of the event-handler analysis (claim C8)

These two definitions follow the spec's (amended) words for the shape
analysis, to be compared with `Template.analyzeEventHandler`. -/

/-- Spec: the method name is the receiver's property name when the root is a
call on a property read, the name of a bare property read, and empty for any
other shape. -/
def specHandlerName : ExprAst → String
  | .call (.propertyRead _ n) _ => n
  | .propertyRead _ n => n
  | _ => ""

/-- Spec (amended): the arguments are the stringified argument list of any
call root — also when the call's receiver is not a property read — and empty
for non-call roots. -/
def specHandlerArgs : ExprAst → List String
  | .call _ as => as.map exprToString
  | _ => []

/-- A `@switch` whose single `@case (1)` contains a text node. -/
def c3Demo : TmplNode :=
  .switchBlock (.withSource ⟨.propertyRead .implicitReceiver "x", some "x"⟩)
    [⟨some (.withSource ⟨.literalPrimitive "1", some "1"⟩), [.text "a"], 5⟩] 4

/-- A `(click)` handler whose root is a call on a call:
`<button (click)="f()($event)">`. -/
def c8BadEvent : BoundEvent :=
  ⟨"click", .withSource ⟨.call (.call (.propertyRead .implicitReceiver "f") [])
      [.propertyRead .implicitReceiver "$event"], some "f()($event)"⟩, 7⟩

/-- `<button (click)="save($event)">x</button>`. -/
def c8SaveEvent : BoundEvent :=
  ⟨"click", .withSource ⟨.call (.propertyRead .implicitReceiver "save")
      [.propertyRead .implicitReceiver "$event"], some "save($event)"⟩, 7⟩

/-- `@if (user.active) { <div>x</div> }`. -/
def c9Demo : TmplNode :=
  .ifBlock [⟨some (.withSource ⟨.propertyRead (.propertyRead .implicitReceiver "user")
      "active", some "user.active"⟩),
    [.element "div" [] [] [] [.text "x"]]⟩] 3

/-- The condition expression of `c9Demo`. -/
def c9CondAst : ExprAst := .propertyRead (.propertyRead .implicitReceiver "user") "active"

/-- An element containing a `@defer` block whose main region holds a text
node. -/
def c10Defer : TmplNode := .deferBlock [.text "hidden"] [] [] [] 9

def c10Tree : TmplNode := .element "div" [] [] [] [c10Defer]

/-! ## Traversal lemmas -/

theorem listW_append (l₁ l₂ : List TmplNode) : listW (l₁ ++ l₂) = listW l₁ + listW l₂ := by
  induction l₁ with
  | nil => simp [listW]
  | cons n r ih => simp [listW, ih]; omega

theorem listW_reverse (l : List TmplNode) : listW l.reverse = listW l := by
  induction l with
  | nil => rfl
  | cons n r ih => simp [listW, List.reverse_cons, listW_append, ih]; omega

theorem branches_flat_le (brs : List IfBranch) :
    listW (brs.flatMap IfBranch.children) ≤ branchesW brs := by
  induction brs with
  | nil => simp [listW, branchesW]
  | cons b r ih =>
    simp only [List.flatMap_cons, listW_append, branchesW]
    cases b with
    | mk e ch => simp [IfBranch.children, branchW]; omega

theorem cases_flat_le (cs : List SwitchCase) :
    listW (cs.flatMap SwitchCase.children) ≤ casesW cs := by
  induction cs with
  | nil => simp [listW, casesW]
  | cons c r ih =>
    simp only [List.flatMap_cons, listW_append, casesW]
    cases c with
    | mk e ch sp => simp [SwitchCase.children, caseW]; omega

theorem childrenOf_lt (n : TmplNode) : listW (childrenOf n) < nodeW n := by
  cases n <;> simp [childrenOf, nodeW, listW] <;> try omega
  case ifBlock brs sp => have := branches_flat_le brs; omega
  case switchBlock e cs sp => have := cases_flat_le cs; omega

theorem nodeW_pos (n : TmplNode) : 1 ≤ nodeW n := by
  cases n <;> simp [nodeW] <;> omega

theorem mirrorPreL_append (a b : List TmplNode) :
    mirrorPreL (a ++ b) = mirrorPreL a ++ mirrorPreL b := by
  induction a with
  | nil => simp [mirrorPreL]
  | cons n r ih => simp [mirrorPreL, ih]

theorem traverseFuel_eq_mirror :
    ∀ (f : Nat) (stack : List TmplNode), listW stack ≤ f →
      traverseFuel f stack = mirrorPreL stack := by
  intro f
  induction f with
  | zero =>
    intro stack h
    cases stack with
    | nil => simp [traverseFuel, mirrorPreL]
    | cons n r => have := nodeW_pos n; simp [listW] at h; omega
  | succ f ih =>
    intro stack h
    cases stack with
    | nil => simp [traverseFuel, mirrorPreL]
    | cons n r =>
      have hch := childrenOf_lt n
      have hle : listW ((childrenOf n).reverse ++ r) ≤ f := by
        rw [listW_append, listW_reverse]
        simp [listW] at h
        omega
      simp only [traverseFuel, ih _ hle]
      rw [mirrorPreL_append]
      simp [mirrorPreL]

/-- `traverseNodes` equals the mirrored pre-order of the root forest. -/
theorem traverseNodes_eq_mirror (nodes : List TmplNode) :
    Template.traverseNodes nodes = mirrorPreL nodes.reverse := by
  unfold Template.traverseNodes
  exact traverseFuel_eq_mirror _ _ (by rw [listW_reverse])

/-- Generic invariant of the stack traversal: any property holding on the
roots and preserved from a node to its pushed children holds for every
visited node. -/
theorem traverseFuel_invariant (R : TmplNode → Prop)
    (hstep : ∀ p x, R p → x ∈ childrenOf p → R x) :
    ∀ (f : Nat) (stack : List TmplNode), (∀ y ∈ stack, R y) →
      ∀ x ∈ traverseFuel f stack, R x := by
  intro f
  induction f with
  | zero => intro stack _ x hx; simp [traverseFuel] at hx
  | succ f ih =>
    intro stack hstack x hx
    cases stack with
    | nil => simp [traverseFuel] at hx
    | cons n r =>
      simp only [traverseFuel, List.mem_cons] at hx
      rcases hx with rfl | hx
      · exact hstack x (by simp)
      · refine ih _ ?_ x hx
        intro y hy
        rcases List.mem_append.1 hy with hy | hy
        · exact hstep n y (hstack n (by simp)) (List.mem_reverse.1 hy)
        · exact hstack y (by simp [hy])

/-- Specialization to `traverseNodes`. -/
theorem traverseNodes_invariant (R : TmplNode → Prop)
    (hstep : ∀ p x, R p → x ∈ childrenOf p → R x)
    (nodes : List TmplNode) (hroots : ∀ y ∈ nodes, R y) :
    ∀ x ∈ Template.traverseNodes nodes, R x := by
  refine traverseFuel_invariant R hstep _ _ ?_
  intro y hy
  exact hroots y (List.mem_reverse.1 hy)

/-! ## Fold characterizations shared by the query functions -/

theorem foldl_push_flatMap {α : Type} (g : TmplNode → List α) :
    ∀ (l : List TmplNode) (acc : List α),
      l.foldl (fun a n => a ++ g n) acc = acc ++ l.flatMap g := by
  intro l
  induction l with
  | nil => simp
  | cons n r ih => intro acc; simp [ih, List.append_assoc]

theorem flatMap_toList_filterMap {α β : Type} (f : α → Option β) (l : List α) :
    l.flatMap (fun a => (f a).toList) = l.filterMap f := by
  induction l with
  | nil => simp
  | cons a r ih => cases h : f a <;> simp [List.filterMap_cons, h, ih]

theorem addUniq_mem (acc : List String) (s t : String) :
    t ∈ addUniq acc s ↔ t ∈ acc ∨ t = s := by
  unfold addUniq
  by_cases h : s ∈ acc
  · simp only [if_pos h]
    constructor
    · exact Or.inl
    · rintro (hm | rfl)
      · exact hm
      · exact h
  · simp [if_neg h]

theorem addUniq_nodup (acc : List String) (s : String) (h : acc.Nodup) :
    (addUniq acc s).Nodup := by
  unfold addUniq
  by_cases hm : s ∈ acc
  · simp only [if_pos hm]; exact h
  · simp only [if_neg hm]
    exact List.Nodup.append h (List.nodup_singleton s) (by simpa using hm)

theorem foldl_addUniq_mem (l : List String) :
    ∀ (acc : List String) (t : String), t ∈ l.foldl addUniq acc ↔ t ∈ acc ∨ t ∈ l := by
  induction l with
  | nil => simp
  | cons s r ih =>
    intro acc t
    simp only [List.foldl_cons, ih, addUniq_mem, List.mem_cons]
    tauto

theorem foldl_addUniq_nodup (l : List String) :
    ∀ (acc : List String), acc.Nodup → (l.foldl addUniq acc).Nodup := by
  induction l with
  | nil => intro acc h; simpa using h
  | cons s r ih => intro acc h; exact ih _ (addUniq_nodup _ _ h)

/-- The three sequential `if`s of the `getBindingDependencies` visitor are the
single conditional insertion of `depOf`. -/
theorem dep_step_eq (acc : List String) (n : TmplNode) :
    (let acc1 := match n with | .boundAttrNode a => addUniq acc a.name | _ => acc
     let acc2 := match n with | .boundEventNode ev => addUniq acc1 ev.handler.str | _ => acc1
     match n with | .boundText v _ => addUniq acc2 v.str | _ => acc2) =
      (match depOf n with | some s => addUniq acc s | none => acc) := by
  cases n <;> rfl

theorem foldl_dep_eq (l : List TmplNode) :
    ∀ (acc : List String),
      l.foldl (fun acc n =>
        let acc1 := match n with | .boundAttrNode a => addUniq acc a.name | _ => acc
        let acc2 := match n with | .boundEventNode ev => addUniq acc1 ev.handler.str | _ => acc1
        match n with | .boundText v _ => addUniq acc2 v.str | _ => acc2) acc =
      (l.filterMap depOf).foldl addUniq acc := by
  induction l with
  | nil => simp
  | cons n r ih =>
    intro acc
    rw [List.foldl_cons, dep_step_eq, List.filterMap_cons]
    cases depOf n <;> simp [ih]

theorem listNoCase_mem {l : List TmplNode} {x : TmplNode}
    (hl : listNoCase l = true) (hx : x ∈ l) : nodeNoCase x = true := by
  induction l with
  | nil => simp at hx
  | cons n r ih =>
    simp only [listNoCase, Bool.and_eq_true] at hl
    rcases List.mem_cons.1 hx with rfl | hx
    · exact hl.1
    · exact ih hl.2 hx

theorem branchesNoCase_mem {brs : List IfBranch} {b : IfBranch}
    (hb : branchesNoCase brs = true) (hm : b ∈ brs) : branchNoCase b = true := by
  induction brs with
  | nil => simp at hm
  | cons a r ih =>
    simp only [branchesNoCase, Bool.and_eq_true] at hb
    rcases List.mem_cons.1 hm with rfl | hm
    · exact hb.1
    · exact ih hb.2 hm

theorem branchesNoCase_flat {brs : List IfBranch} {x : TmplNode}
    (hb : branchesNoCase brs = true) (hx : x ∈ brs.flatMap IfBranch.children) :
    nodeNoCase x = true := by
  rw [List.mem_flatMap] at hx
  obtain ⟨b, hbm, hxb⟩ := hx
  have hbn := branchesNoCase_mem hb hbm
  cases b with
  | mk e ch => exact listNoCase_mem (by simpa [branchNoCase] using hbn) hxb

theorem casesNoCase_mem {cs : List SwitchCase} {c : SwitchCase}
    (hc : casesNoCase cs = true) (hm : c ∈ cs) : caseNoCase c = true := by
  induction cs with
  | nil => simp at hm
  | cons a r ih =>
    simp only [casesNoCase, Bool.and_eq_true] at hc
    rcases List.mem_cons.1 hm with rfl | hm
    · exact hc.1
    · exact ih hc.2 hm

theorem casesNoCase_flat {cs : List SwitchCase} {x : TmplNode}
    (hc : casesNoCase cs = true) (hx : x ∈ cs.flatMap SwitchCase.children) :
    nodeNoCase x = true := by
  rw [List.mem_flatMap] at hx
  obtain ⟨c, hcm, hxc⟩ := hx
  have hcn := casesNoCase_mem hc hcm
  cases c with
  | mk e ch sp => exact listNoCase_mem (by simpa [caseNoCase] using hcn) hxc

theorem nodeNoCase_step {p x : TmplNode} (hp : nodeNoCase p = true)
    (hx : x ∈ childrenOf p) : nodeNoCase x = true := by
  cases p with
  | element t a i o ch => exact listNoCase_mem hp hx
  | template t a i o ch => exact listNoCase_mem hp hx
  | ifBlock brs sp => exact branchesNoCase_flat hp hx
  | forBlock e ch ech sp =>
    simp only [nodeNoCase, Bool.and_eq_true] at hp
    exact listNoCase_mem hp.1 hx
  | switchBlock e cs sp => exact casesNoCase_flat hp hx
  | text v => simp [childrenOf] at hx
  | boundText v sp => simp [childrenOf] at hx
  | boundAttrNode a => simp [childrenOf] at hx
  | boundEventNode ev => simp [childrenOf] at hx
  | switchCase c => simp [childrenOf] at hx
  | deferBlock a b c d sp => simp [childrenOf] at hx

/-! ## Per-node record extraction used by the fold characterizations -/

/-! ## Lemmas about the dependency collection (claim C9) -/

theorem implicitReadName_eq_some (a : ExprAst) (s : String) :
    implicitReadName a = some s ↔ a = .propertyRead .implicitReceiver s := by
  cases a with
  | implicitReceiver => simp [implicitReadName]
  | propertyRead r n => cases r <;> simp [implicitReadName]
  | call r as => simp [implicitReadName]
  | literalPrimitive v => simp [implicitReadName]

end NgMorph

/-! Concrete smoke checks of the selector engine. -/

example : NgMorph.CssSelector.parse "div.Foo" =
    .ok [⟨some "div", ["foo"], [], []⟩] := by rfl

example : NgMorph.CssSelector.parse "[A]" =
    .ok [⟨none, [], ["A", ""], []⟩] := by rfl

example : NgMorph.CssSelector.parse ":not(a,b)" =
    .error "Multiple selectors in :not are not supported" := by rfl

example : NgMorph.CssSelector.parse ":not(:not(a))" =
    .error "Nesting :not in a selector is not allowed" := by rfl

example : NgMorph.CssSelector.parse "a , b" =
    .ok [⟨some "a", [], [], []⟩, ⟨some "b", [], [], []⟩] := by rfl

example : NgMorph.CssSelector.parse "#Id[k=\"V\"]:not(.x)" =
    .ok [⟨none, [], ["id", "id", "k", "v"], [⟨none, ["x"], [], []⟩]⟩] := by rfl

example : NgMorph.CssSelector.toStr ⟨some "div", ["foo"], ["A", ""], [⟨none, ["x"], [], []⟩]⟩
    = "div.foo[A]:not(.x)" := by rfl

/-! # Claim theorems (traversal and analysis) -/

namespace NgMorph

/-! ## Claim C1 — traversal order -/

/-- Claim C1, as stated, is false: the stack-based traversal visits sibling
nodes in *reverse* source order.  On the two-root template `[text "a",
text "b"]` the visit order is `[text "b", text "a"]`. -/
theorem claim_C1_counterexample :
    Template.traverseNodes [.text "a", .text "b"] = [TmplNode.text "b", .text "a"] ∧
      Template.traverseNodes [.text "a", .text "b"] ≠ [TmplNode.text "a", .text "b"] := by
  refine ⟨rfl, ?_⟩
  intro h
  have h2 : ([TmplNode.text "b", .text "a"] : List TmplNode) = [.text "a", .text "b"] := h
  simp at h2

/-- Claim C1 (amended): the depth-first traversal underlying all queries is
pre-order — every taken node is visited before its children are processed —
but visits the roots and each node's children in *reverse* source order
(`mirrorPreL`). -/
theorem claim_C1_amended (nodes : List TmplNode) :
    Template.traverseNodes nodes = mirrorPreL nodes.reverse :=
  traverseNodes_eq_mirror nodes

/-! ## Claim C2 — `getBindingDependencies` -/

/-- Claim C2: `getBindingDependencies` returns the insertion-ordered
deduplication of the per-node contributions of the traversal — the binding
name for each visited property-binding node, the stringified handler for each
visited event-binding node, the stringified expression for each visited
interpolation node; the result is duplicate-free and contains exactly those
contributions. -/
theorem claim_C2 (nodes : List TmplNode) :
    Template.getBindingDependencies nodes =
        ((Template.traverseNodes nodes).filterMap depOf).foldl addUniq [] ∧
      (Template.getBindingDependencies nodes).Nodup ∧
      ∀ s, s ∈ Template.getBindingDependencies nodes ↔
        s ∈ (Template.traverseNodes nodes).filterMap depOf := by
  have h : Template.getBindingDependencies nodes =
      ((Template.traverseNodes nodes).filterMap depOf).foldl addUniq [] :=
    foldl_dep_eq (Template.traverseNodes nodes) []
  refine ⟨h, ?_, ?_⟩
  · rw [h]; exact foldl_addUniq_nodup _ _ (by simp)
  · intro s; rw [h, foldl_addUniq_mem]; simp

/-! ## Claim C3 — `getControlFlowExpressions` -/

/-- Claim C3, as stated, is false: on a template with one `@switch` block
containing one `@case`, `getControlFlowExpressions` returns only the
`switch` record — no record of kind `case` is produced for the `@case`. -/
theorem claim_C3_counterexample :
    Template.getControlFlowExpressions [c3Demo] =
        [⟨CFType.cfSwitch, "x", ["x"], 4⟩] ∧
      (Template.getControlFlowExpressions [c3Demo]).all
        (fun r => r.type != CFType.cfCase) = true := by
  exact ⟨rfl, rfl⟩

/-- Claim C3 (amended): `getControlFlowExpressions` maps the traversal through
the four-way dispatch `cfOf` (if-block → first branch's condition, for-block →
loop expression, switch-block → switch expression, free-standing switch-case
node → case expression, each with `cfRefs` dependencies); a switch block
pushes only its cases' children, not the case nodes, so on any template
without free-standing case nodes no record of kind `case` is ever
produced. -/
theorem claim_C3_amended (nodes : List TmplNode) :
    (Template.getControlFlowExpressions nodes =
        (Template.traverseNodes nodes).filterMap cfOf) ∧
      (∀ e cs sp, childrenOf (.switchBlock e cs sp) = cs.flatMap SwitchCase.children) ∧
      (listNoCase nodes = true →
        (Template.getControlFlowExpressions nodes).all
          (fun r => r.type != CFType.cfCase) = true) := by
  have heq : Template.getControlFlowExpressions nodes =
      (Template.traverseNodes nodes).filterMap cfOf := by
    unfold Template.getControlFlowExpressions
    have h0 := foldl_push_flatMap (fun n => (cfOf n).toList) (Template.traverseNodes nodes) []
    rw [List.nil_append, flatMap_toList_filterMap] at h0
    exact h0
  refine ⟨heq, fun e cs sp => rfl, ?_⟩
  intro hnc
  rw [List.all_eq_true]
  intro r hr
  rw [heq, List.mem_filterMap] at hr
  obtain ⟨n, hn, hcf⟩ := hr
  have hnn : nodeNoCase n = true :=
    traverseNodes_invariant (fun y => nodeNoCase y = true)
      (fun p x hp hx => nodeNoCase_step hp hx) nodes
      (fun y hy => listNoCase_mem hnc hy) n hn
  cases n with
  | switchCase c => simp [nodeNoCase] at hnn
  | ifBlock brs sp =>
    simp only [cfOf, Option.some.injEq] at hcf
    rw [← hcf]
    simp [Template.analyzeIfExpression]
  | forBlock e ch ech sp =>
    simp only [cfOf, Option.some.injEq] at hcf
    rw [← hcf]
    simp [Template.analyzeForExpression]
  | switchBlock e cs sp =>
    simp only [cfOf, Option.some.injEq] at hcf
    rw [← hcf]
    simp [Template.analyzeSwitchExpression]
  | element t a i o ch => simp [cfOf] at hcf
  | template t a i o ch => simp [cfOf] at hcf
  | text v => simp [cfOf] at hcf
  | boundText v sp => simp [cfOf] at hcf
  | boundAttrNode a => simp [cfOf] at hcf
  | boundEventNode ev => simp [cfOf] at hcf
  | deferBlock a b c d sp => simp [cfOf] at hcf

/-- Witness for C3 (amended): the hypothesis holds on the concrete `@switch`
template, and the conclusion evaluates. -/
theorem claim_C3_witness :
    (Template.getControlFlowExpressions [c3Demo]).all
      (fun r => r.type != CFType.cfCase) = true :=
  (claim_C3_amended [c3Demo]).2.2 rfl

end NgMorph

namespace NgMorph

/-! ## Claim C8 — `getEventHandlers` / `analyzeEventHandler` -/

/-- Claim C8, as stated, is false: a handler whose root is a call on a
non-property-read receiver is not given "empty name and empty arguments" —
the argument list is stringified for every call root, so
`(click)="f()($event)"` yields a record with empty name but arguments
`["$event"]`. -/
theorem claim_C8_counterexample :
    Template.getEventHandlers
        [.element "button" [] [] [c8BadEvent] []] =
      [⟨"", ["$event"], "f()($event)", 7⟩] ∧
    (["$event"] : List String) ≠ [] := by
  exact ⟨rfl, by simp⟩

/-- Claim C8 (amended): for every event binding whose handler is wrapped with
its source, `analyzeEventHandler` records the name of the root call's
property-read receiver (or of a bare property read, else empty) and the
stringified argument list of any call root — also when the call's receiver is
not a property read; a handler without source wrapping yields no record; and
`getEventHandlers` collects these records over the outputs of the visited
element nodes.  In particular `<button (click)="save($event)">x</button>`
yields exactly one record with name `save` and arguments `["$event"]`. -/
theorem claim_C8_amended :
    (∀ (ev : BoundEvent) (a : AstWithSource),
        ev.handler = .withSource a →
          Template.analyzeEventHandler ev =
            some ⟨specHandlerName a.ast, specHandlerArgs a.ast, a.str, ev.span⟩) ∧
      (∀ (ev : BoundEvent) (e : ExprAst),
        ev.handler = .plain e → Template.analyzeEventHandler ev = none) ∧
      (∀ nodes : List TmplNode,
        Template.getEventHandlers nodes =
          (Template.traverseNodes nodes).flatMap
            (fun n => (outputsOf n).filterMap Template.analyzeEventHandler)) ∧
      Template.getEventHandlers
          [.element "button" [] [] [c8SaveEvent] [.text "x"]] =
        [⟨"save", ["$event"], "save($event)", 7⟩] := by
  refine ⟨?_, ?_, ?_, rfl⟩
  · intro ev a h
    obtain ⟨ast, srcTxt⟩ := a
    unfold Template.analyzeEventHandler
    rw [h]
    cases ast with
    | call r as => cases r <;> simp [specHandlerName, specHandlerArgs]
    | propertyRead r n => simp [specHandlerName, specHandlerArgs]
    | implicitReceiver => simp [specHandlerName, specHandlerArgs]
    | literalPrimitive v => simp [specHandlerName, specHandlerArgs]
  · intro ev e h
    unfold Template.analyzeEventHandler
    rw [h]
  · intro nodes
    unfold Template.getEventHandlers
    have h0 := foldl_push_flatMap
      (fun n => (outputsOf n).filterMap Template.analyzeEventHandler)
      (Template.traverseNodes nodes) []
    rw [List.nil_append] at h0
    exact h0

/-- Witness for C8 (amended): the characterization applied to the concrete
`save($event)` handler, whose hypotheses hold definitionally. -/
theorem claim_C8_witness :
    Template.analyzeEventHandler c8SaveEvent =
      some ⟨"save", ["$event"], "save($event)", 7⟩ :=
  claim_C8_amended.1 c8SaveEvent
    ⟨.call (.propertyRead .implicitReceiver "save")
      [.propertyRead .implicitReceiver "$event"], some "save($event)"⟩ rfl

/-! ## Claim C9 — implicit-receiver dependency extraction -/

/-- Claim C9: the dependency extraction collects exactly the names of
property-read nodes whose receiver is the implicit receiver — a name is in
the collected list iff the corresponding implicit property read is visited;
an expression whose walk contains no implicit-receiver property read yields
an empty list; and `@if (user.active) { <div>x</div> }` produces one record
of kind `if` whose `referencedProperties` are exactly `["user"]` (so they
contain `"user"` but not `"active"`). -/
theorem claim_C9 :
    (∀ (e : ExprAst) (name : String),
        name ∈ collectRefs e ↔
          ExprAst.propertyRead .implicitReceiver name ∈ traverseAST e) ∧
      (∀ e : ExprAst,
        (∀ name, ExprAst.propertyRead .implicitReceiver name ∉ traverseAST e) →
          collectRefs e = []) ∧
      Template.getControlFlowExpressions [c9Demo] =
        [⟨CFType.cfIf, "user.active", ["user"], 3⟩] := by
  have hmem : ∀ (e : ExprAst) (name : String),
      name ∈ collectRefs e ↔
        ExprAst.propertyRead .implicitReceiver name ∈ traverseAST e := by
    intro e name
    simp [collectRefs, List.mem_filterMap, implicitReadName_eq_some]
  refine ⟨hmem, ?_, rfl⟩
  intro e he
  rcases h : collectRefs e with _ | ⟨s, r⟩
  · rfl
  · exfalso
    exact he s ((hmem e s).mp (by rw [h]; simp))

/-- Witness for C9: the membership characterization and the empty-collection
statement applied to the concrete condition of `c9Demo` and to a literal. -/
theorem claim_C9_witness :
    ("user" ∈ collectRefs c9CondAst) ∧ collectRefs (.literalPrimitive "1") = [] := by
  constructor
  · apply (claim_C9.1 c9CondAst "user").mpr
    have h : traverseAST c9CondAst =
        [.propertyRead (.propertyRead .implicitReceiver "user") "active",
         .propertyRead .implicitReceiver "user", .implicitReceiver] := rfl
    rw [h]
    simp
  · apply claim_C9.2.1
    intro name hmem
    have h : traverseAST (.literalPrimitive "1") = [.literalPrimitive "1"] := rfl
    rw [h] at hmem
    simp at hmem

/-! ## Claim C10 — `@defer` contents are never visited -/

/-- Claim C10: every node visited by the shared traversal is reachable from
the roots through structural child steps that never pass through a
`DeferBlock` — the traversal pushes children only for the element, template,
if-, for- and switch-block variants, and a defer block pushes nothing, so
nothing located (only) inside a `@defer` block is ever visited or returned by
the queries built on the traversal. -/
theorem claim_C10 (nodes : List TmplNode) (x : TmplNode)
    (hx : x ∈ Template.traverseNodes nodes) : ReachableOutsideDefer nodes x := by
  refine traverseNodes_invariant (ReachableOutsideDefer nodes) ?_ nodes
    (fun y hy => .root hy) x hx
  intro p y hp hc
  cases p with
  | element t a i o ch => exact .child hp rfl hc
  | template t a i o ch => exact .child hp rfl hc
  | ifBlock brs sp => exact .child hp rfl hc
  | forBlock e ch ech sp =>
    refine .child hp rfl ?_
    simp only [childrenOf] at hc
    simp only [structChildren]
    exact List.mem_append_left _ hc
  | switchBlock e cs sp => exact .child hp rfl hc
  | text v => simp [childrenOf] at hc
  | boundText v sp => simp [childrenOf] at hc
  | boundAttrNode a => simp [childrenOf] at hc
  | boundEventNode ev => simp [childrenOf] at hc
  | switchCase c => simp [childrenOf] at hc
  | deferBlock a b c d sp => simp [childrenOf] at hc

/-- Witness for C10: the theorem applied to a concrete visited node of a
template containing a `@defer` block. -/
theorem claim_C10_witness : ReachableOutsideDefer [c10Tree] c10Tree := by
  apply claim_C10
  have h : Template.traverseNodes [c10Tree] = [c10Tree, c10Defer] := rfl
  rw [h]
  exact List.mem_cons_self _ _

end NgMorph

namespace NgMorph

/-! ## Claim C5 — `matches` is monotonic in `:not` -/

theorem anyMatches_of_mem {nots : List CssSelector} {ns : CssSelector} {e : ElementRec}
    (hmem : ns ∈ nots) (hm : ns.matches e = true) : anyMatches nots e = true := by
  induction nots with
  | nil => simp at hmem
  | cons a r ih =>
    rcases List.mem_cons.1 hmem with rfl | hmem
    · simp [anyMatches, hm]
    · simp [anyMatches, ih hmem]

/-- Claim C5: if `notSelectors` is non-empty and at least one entry matches
the element record, then `matches` returns `false`, regardless of the
positive predicates. -/
theorem claim_C5 (sel : CssSelector) (e : ElementRec)
    (hne : sel.notSelectors ≠ [])
    (hmatch : ∃ ns ∈ sel.notSelectors, ns.matches e = true) :
    sel.matches e = false := by
  obtain ⟨el, cls, ats, nots⟩ := sel
  simp only [CssSelector.notSelectors] at hmatch
  obtain ⟨ns, hmem, hm⟩ := hmatch
  have hany : anyMatches nots e = true := anyMatches_of_mem hmem hm
  simp [CssSelector.matches, hany]

/-- Witness for C5: a selector whose tag check succeeds on the element but
whose (non-empty) `:not` list contains the empty selector, which matches
everything. -/
theorem claim_C5_witness :
    (CssSelector.mk (some "div") [] [] [CssSelector.empty]).matches
      ⟨some "div", [], []⟩ = false := by
  apply claim_C5
  · simp [CssSelector.notSelectors]
  · refine ⟨CssSelector.empty, by simp [CssSelector.notSelectors], ?_⟩
    simp [CssSelector.empty, CssSelector.matches, anyMatches, tagCheck, classCheck,
      attrCheck, attrPairs]

/-! ## Claim C6 — parse failures -/

theorem parseTokens_scan :
    ∀ (ts : List SelToken) (results : List CssSelector) (top : CssSelector)
      (sub : Option CssSelector),
      (∀ e, parseTokens ts results top sub = .error e ↔ scanErr sub.isSome ts = some e) ∧
      (scanErr sub.isSome ts = none →
        ∃ sels, parseTokens ts results top sub = .ok sels) := by
  intro ts
  induction ts with
  | nil =>
    intro results top sub
    refine ⟨fun e => ?_, fun _ => ⟨_, rfl⟩⟩
    simp [parseTokens, scanErr]
  | cons t ts ih =>
    intro results top sub
    cases t with
    | notOpen =>
      cases sub with
      | none => simpa [parseTokens, scanErr] using ih results top (some .empty)
      | some s =>
        refine ⟨fun e => ?_, fun h => ?_⟩
        · simp [parseTokens, scanErr]
        · simp [scanErr] at h
    | tag p b =>
      cases sub with
      | none => simpa [parseTokens, scanErr] using ih results (applyTag top p b) none
      | some s => simpa [parseTokens, scanErr] using ih results top (some (applyTag s p b))
    | attr n v =>
      cases sub with
      | none => simpa [parseTokens, scanErr] using ih results (top.addAttribute n v) none
      | some s =>
        simpa [parseTokens, scanErr] using ih results top (some (s.addAttribute n v))
    | rparen =>
      cases sub with
      | none => simpa [parseTokens, scanErr] using ih results top none
      | some s => simpa [parseTokens, scanErr] using ih results (top.pushNot s) none
    | comma =>
      cases sub with
      | none => simpa [parseTokens, scanErr] using ih (results ++ [top]) .empty none
      | some s =>
        refine ⟨fun e => ?_, fun h => ?_⟩
        · simp [parseTokens, scanErr]
        · simp [scanErr] at h

/-- Claim C6: `parse` fails exactly when the left-to-right scan hits a second
`:not(` while a negated group is open (with the nesting error) or a comma
while a negated group is open (with the multiple-selectors error); on every
other input — tokens outside the grammar are skipped by the scan — it returns
a selector list. -/
theorem claim_C6 (s : String) :
    (∀ e, CssSelector.parse s = .error e ↔ scanErr false (lexSel s) = some e) ∧
      (scanErr false (lexSel s) = none → ∃ sels, CssSelector.parse s = .ok sels) := by
  have h := parseTokens_scan (lexSel s) [] .empty none
  simpa [CssSelector.parse] using h

/-- Witness for C6: the characterization applied to a nested-`:not` input, a
comma-in-`:not` input, and an input full of characters outside the grammar. -/
theorem claim_C6_witness :
    CssSelector.parse ":not(:not(x))" = .error "Nesting :not in a selector is not allowed" ∧
      CssSelector.parse ":not(a,b)" = .error "Multiple selectors in :not are not supported" ∧
      (∃ sels, CssSelector.parse "@!a%" = .ok sels) := by
  refine ⟨?_, ?_, ?_⟩
  · exact ((claim_C6 ":not(:not(x))").1 _).mpr rfl
  · exact ((claim_C6 ":not(a,b)").1 _).mpr rfl
  · exact (claim_C6 "@!a%").2 rfl

end NgMorph

namespace NgMorph

/-! ## Arithmetic of the case mapping -/

theorem toNat_ofNat_valid {n : Nat} (h : n < 55296) : (Char.ofNat n).toNat = n := by
  have hv : n.isValidChar := Or.inl h
  rw [Char.ofNat, dif_pos hv]
  simp [Char.ofNatAux, Char.toNat, UInt32.toNat, BitVec.toNat_ofNatLt]

theorem jsLowerChar_of_not_upper {c : Char} (h : ¬(65 ≤ c.toNat ∧ c.toNat ≤ 90)) :
    jsLowerChar c = c := by
  unfold jsLowerChar; rw [if_neg h]

theorem jsLowerChar_toNat (c : Char) :
    (jsLowerChar c).toNat =
      if 65 ≤ c.toNat ∧ c.toNat ≤ 90 then c.toNat + 32 else c.toNat := by
  unfold jsLowerChar
  by_cases h : 65 ≤ c.toNat ∧ c.toNat ≤ 90
  · rw [if_pos h, if_pos h, toNat_ofNat_valid (by omega)]
  · rw [if_neg h, if_neg h]

theorem jsLowerChar_idem (c : Char) : jsLowerChar (jsLowerChar c) = jsLowerChar c := by
  by_cases h : 65 ≤ c.toNat ∧ c.toNat ≤ 90
  · have ht : (jsLowerChar c).toNat = c.toNat + 32 := by rw [jsLowerChar_toNat, if_pos h]
    exact jsLowerChar_of_not_upper (by omega)
  · rw [jsLowerChar_of_not_upper h, jsLowerChar_of_not_upper h]

theorem jsLowerChar_tagChar {c : Char} (h : isTagChar c = true) :
    isTagChar (jsLowerChar c) = true := by
  have ht := jsLowerChar_toNat c
  by_cases hu : 65 ≤ c.toNat ∧ c.toNat ≤ 90 <;>
    simp [hu, isTagChar, isWordChar] at ht h ⊢ <;> omega

theorem jsLowerChar_valueChar {c : Char} (h : isValueChar c = true) :
    isValueChar (jsLowerChar c) = true := by
  have ht := jsLowerChar_toNat c
  by_cases hu : 65 ≤ c.toNat ∧ c.toNat ≤ 90 <;>
    simp [hu, isValueChar] at ht h ⊢ <;> omega

theorem tagChar_valueChar {c : Char} (h : isTagChar c = true) : isValueChar c = true := by
  simp [isTagChar, isWordChar] at h
  simp [isValueChar]
  omega

theorem jsToLower_idem (s : String) : jsToLower (jsToLower s) = jsToLower s := by
  unfold jsToLower
  refine congrArg String.mk ?_
  show (s.data.map jsLowerChar).map jsLowerChar = s.data.map jsLowerChar
  rw [List.map_map]
  exact List.map_congr_left (fun c _ => jsLowerChar_idem c)

theorem lowerInvB_jsToLower (s : String) : lowerInvB (jsToLower s) = true := by
  simp [lowerInvB, jsToLower_idem]

theorem strNE_jsToLower {s : String} (h : strNE s = true) : strNE (jsToLower s) = true := by
  simp [strNE, jsToLower] at h ⊢
  simpa using h

theorem strAll_jsToLower {p : Char → Bool}
    (hp : ∀ c, p c = true → p (jsLowerChar c) = true) {s : String}
    (h : strAll p s = true) : strAll p (jsToLower s) = true := by
  simp only [strAll, jsToLower, List.all_map] at h ⊢
  rw [List.all_eq_true] at h ⊢
  exact fun c hc => hp c (h c hc)

theorem strAll_tag_value {s : String} (h : strAll isTagChar s = true) :
    strAll isValueChar s = true := by
  simp only [strAll, List.all_eq_true] at h ⊢
  exact fun c hc => tagChar_valueChar (h c hc)

/-! ## The lexer emits only well-formed tokens -/

theorem matchNot_tokOK {rest : List Char} {t : SelToken} {r : List Char}
    (h : matchNot rest = some (t, r)) : tokOK t = true := by
  unfold matchNot at h
  split at h
  · simp only [Option.some.injEq, Prod.mk.injEq] at h
    rw [← h.1]
    rfl
  · exact absurd h (by simp)

theorem matchPrefTag_tokOK {c : Char} {rest : List Char} {t : SelToken} {r : List Char}
    (hc : (c = '.' || c = '#') = true) (h : matchPrefTag c rest = some (t, r)) :
    tokOK t = true := by
  unfold matchPrefTag at h
  split at h
  · exact absurd h (by simp)
  · rename_i hne
    simp only [Option.some.injEq, Prod.mk.injEq] at h
    rw [← h.1]
    simp only [tokOK, pfxOK, strNE, strAll, Bool.and_eq_true]
    exact ⟨⟨by simpa using hc, by simpa using hne⟩, List.all_takeWhile⟩

theorem matchAttr_tokOK {rest : List Char} {t : SelToken} {r : List Char}
    (h : matchAttr rest = some (t, r)) : tokOK t = true := by
  unfold matchAttr at h
  split at h
  · exact absurd h (by simp)
  · rename_i hne
    split at h
    · simp only [Option.some.injEq, Prod.mk.injEq] at h
      rw [← h.1]
      simp only [tokOK, strNE, strAll, Bool.and_eq_true]
      exact ⟨⟨by simpa using hne, List.all_takeWhile⟩, by simp⟩
    · split at h
      · split at h
        · split at h
          · simp only [Option.some.injEq, Prod.mk.injEq] at h
            rw [← h.1]
            simp only [tokOK, strNE, strAll, Bool.and_eq_true]
            exact ⟨⟨by simpa using hne, List.all_takeWhile⟩, List.all_takeWhile⟩
          · exact absurd h (by simp)
        · exact absurd h (by simp)
      · split at h
        · simp only [Option.some.injEq, Prod.mk.injEq] at h
          rw [← h.1]
          simp only [tokOK, strNE, strAll, Bool.and_eq_true]
          exact ⟨⟨by simpa using hne, List.all_takeWhile⟩, List.all_takeWhile⟩
        · exact absurd h (by simp)
    · exact absurd h (by simp)

theorem matchComma_tokOK {s : List Char} {t : SelToken} {r : List Char}
    (h : matchComma s = some (t, r)) : tokOK t = true := by
  unfold matchComma at h
  split at h
  · simp only [Option.some.injEq, Prod.mk.injEq] at h
    rw [← h.1]
    rfl
  · exact absurd h (by simp)

theorem matchAt_tokOK {l : List Char} {t : SelToken} {r : List Char}
    (h : matchAt l = some (t, r)) : tokOK t = true := by
  cases l with
  | nil => exact absurd h (by simp [matchAt])
  | cons c rest =>
    simp only [matchAt] at h
    split_ifs at h with h1 h2 h3 h4 h5
    · exact matchNot_tokOK h
    · exact matchPrefTag_tokOK (by simpa using h2) h
    · simp only [Option.some.injEq, Prod.mk.injEq] at h
      rw [← h.1]
      simp only [tokOK, pfxOK, strNE, strAll, Bool.and_eq_true]
      refine ⟨⟨trivial, by simp⟩, ?_⟩
      simp only [List.all_cons, Bool.and_eq_true]
      exact ⟨h3, List.all_takeWhile⟩
    · exact matchAttr_tokOK h
    · simp only [Option.some.injEq, Prod.mk.injEq] at h
      rw [← h.1]
      rfl
    · exact matchComma_tokOK h

theorem lexAux_tokOK :
    ∀ (fuel : Nat) (l : List Char) (t : SelToken), t ∈ lexAux fuel l → tokOK t = true := by
  intro fuel
  induction fuel with
  | zero => intro l t ht; simp [lexAux] at ht
  | succ fuel ih =>
    intro l t ht
    cases l with
    | nil => simp [lexAux] at ht
    | cons c rest =>
      unfold lexAux at ht
      cases hm : matchAt (c :: rest) with
      | none => rw [hm] at ht; exact ih rest t ht
      | some pr =>
        obtain ⟨t0, r0⟩ := pr
        rw [hm] at ht
        rcases List.mem_cons.1 ht with rfl | ht
        · exact matchAt_tokOK hm
        · exact ih r0 t ht

theorem lexSel_tokOK {s : String} {t : SelToken} (ht : t ∈ lexSel s) : tokOK t = true :=
  lexAux_tokOK _ _ t ht

end NgMorph

namespace NgMorph

/-! ## The parser preserves well-formedness -/

theorem evenAttrs_append_pair :
    ∀ (ats : List String), evenAttrs ats = true →
      ∀ n v, evenAttrs (ats ++ [n, v]) = true
  | [], _, n, v => by simp [evenAttrs]
  | [x], h, _, _ => by simp [evenAttrs] at h
  | x :: y :: r, h, n, v => by
    simp only [List.cons_append]
    simp only [evenAttrs] at h ⊢
    exact evenAttrs_append_pair r h n v

theorem attrPairs_append_pair :
    ∀ (ats : List String), evenAttrs ats = true →
      ∀ n v, attrPairs (ats ++ [n, v]) = attrPairs ats ++ [(n, v)]
  | [], _, n, v => by simp [attrPairs]
  | [x], h, _, _ => by simp [evenAttrs] at h
  | x :: y :: r, h, n, v => by
    simp only [List.cons_append, attrPairs]
    exact congrArg (List.cons (x, y))
      (attrPairs_append_pair r (by simpa [evenAttrs] using h) n v)

theorem addAttribute_wf {sel : CssSelector} {n v : String}
    (hb : baseOK sel = true) (hn : strNE n = true)
    (hna : strAll isAttrNameChar n = true) (hv : strAll isValueChar v = true) :
    baseOK (sel.addAttribute n v) = true ∧
      (sel.addAttribute n v).notSelectors = sel.notSelectors := by
  obtain ⟨el, cls, ats, nots⟩ := sel
  refine ⟨?_, rfl⟩
  simp only [baseOK, CssSelector.element, CssSelector.classNames, CssSelector.attrs,
    Bool.and_eq_true] at hb
  obtain ⟨⟨⟨helem, hcls⟩, heven⟩, hpairs⟩ := hb
  simp only [CssSelector.addAttribute, baseOK, CssSelector.element, CssSelector.classNames,
    CssSelector.attrs, Bool.and_eq_true]
  refine ⟨⟨⟨helem, hcls⟩, evenAttrs_append_pair ats heven n (jsToLower v)⟩, ?_⟩
  rw [attrPairs_append_pair ats heven]
  simp only [List.all_append, Bool.and_eq_true]
  refine ⟨hpairs, ?_⟩
  have hvl : strAll isValueChar (jsToLower v) = true :=
    strAll_jsToLower (fun c hc => jsLowerChar_valueChar hc) hv
  simp [attrPairOK, hn, hna, hvl, lowerInvB_jsToLower]

theorem addClassName_wf {sel : CssSelector} {b : String}
    (hb : baseOK sel = true) (hn : strNE b = true) (hc : strAll isTagChar b = true) :
    baseOK (sel.addClassName b) = true ∧
      (sel.addClassName b).notSelectors = sel.notSelectors := by
  obtain ⟨el, cls, ats, nots⟩ := sel
  refine ⟨?_, rfl⟩
  simp only [baseOK, CssSelector.element, CssSelector.classNames, CssSelector.attrs,
    Bool.and_eq_true] at hb
  obtain ⟨⟨⟨helem, hcls⟩, heven⟩, hpairs⟩ := hb
  simp only [CssSelector.addClassName, baseOK, CssSelector.element, CssSelector.classNames,
    CssSelector.attrs, Bool.and_eq_true]
  refine ⟨⟨⟨helem, ?_⟩, heven⟩, hpairs⟩
  simp only [List.all_append, Bool.and_eq_true]
  refine ⟨hcls, ?_⟩
  have hcl : strAll isTagChar (jsToLower b) = true :=
    strAll_jsToLower (fun c hc2 => jsLowerChar_tagChar hc2) hc
  simp [classOK, strNE_jsToLower hn, hcl, lowerInvB_jsToLower]

theorem setElement_wf {sel : CssSelector} {b : String}
    (hb : baseOK sel = true) (hn : strNE b = true) (hc : strAll isTagChar b = true) :
    baseOK (sel.setElement b) = true ∧
      (sel.setElement b).notSelectors = sel.notSelectors := by
  obtain ⟨el, cls, ats, nots⟩ := sel
  refine ⟨?_, rfl⟩
  simp only [baseOK, CssSelector.element, CssSelector.classNames, CssSelector.attrs,
    Bool.and_eq_true] at hb
  obtain ⟨⟨⟨helem, hcls⟩, heven⟩, hpairs⟩ := hb
  simp only [CssSelector.setElement, baseOK, CssSelector.element, CssSelector.classNames,
    CssSelector.attrs, Bool.and_eq_true]
  exact ⟨⟨⟨by simp [elemOK, hn, hc], hcls⟩, heven⟩, hpairs⟩

theorem applyTag_wf {sel : CssSelector} {p : Option Char} {b : String}
    (htok : tokOK (.tag p b) = true) (hb : baseOK sel = true) :
    baseOK (applyTag sel p b) = true ∧
      (applyTag sel p b).notSelectors = sel.notSelectors := by
  have h1 : pfxOK p = true ∧ strNE b = true ∧ strAll isTagChar b = true := by
    simpa [tokOK, Bool.and_eq_true, and_assoc] using htok
  obtain ⟨hp, hn, hc⟩ := h1
  cases p with
  | none => exact setElement_wf hb hn hc
  | some c =>
    simp only [pfxOK, Bool.or_eq_true, decide_eq_true_eq] at hp
    simp only [applyTag]
    by_cases hhash : c = '#'
    · rw [if_pos hhash]
      exact addAttribute_wf hb (by decide) (by decide) (strAll_tag_value hc)
    · have hdot : c = '.' := by
        rcases hp with hp | hp
        · exact hp
        · exact absurd hp hhash
      rw [if_neg hhash, if_pos hdot]
      exact addClassName_wf hb hn hc

theorem pushNot_baseOK (sel sub : CssSelector) :
    baseOK (sel.pushNot sub) = baseOK sel := by
  obtain ⟨el, cls, ats, nots⟩ := sel
  rfl

theorem pushNot_nots (sel sub : CssSelector) :
    (sel.pushNot sub).notSelectors = sel.notSelectors ++ [sub] := by
  obtain ⟨el, cls, ats, nots⟩ := sel
  rfl

theorem wfSel_parts {sel : CssSelector} (h : wfSel sel = true) :
    baseOK sel = true ∧
      sel.notSelectors.all (fun t => baseOK t && t.notSelectors.isEmpty) = true := by
  simpa [wfSel, Bool.and_eq_true] using h

theorem wfSel_close {top sub : CssSelector} (htop : wfSel top = true)
    (hsb : baseOK sub = true) (hse : sub.notSelectors = []) :
    wfSel (top.pushNot sub) = true := by
  obtain ⟨hb, hnots⟩ := wfSel_parts htop
  simp only [wfSel, pushNot_baseOK, pushNot_nots, List.all_append, Bool.and_eq_true]
  exact ⟨hb, hnots, by simp [hsb, hse]⟩

theorem parseTokens_wf :
    ∀ (ts : List SelToken) (results : List CssSelector) (top : CssSelector)
      (sub : Option CssSelector) (sels : List CssSelector),
      (∀ t ∈ ts, tokOK t = true) →
      (∀ r ∈ results, wfSel r = true) →
      wfSel top = true →
      (∀ s, sub = some s → baseOK s = true ∧ s.notSelectors = []) →
      parseTokens ts results top sub = .ok sels →
      ∀ sel ∈ sels, wfSel sel = true := by
  intro ts
  induction ts with
  | nil =>
    intro results top sub sels htok hres htop hsub hp sel hmem
    cases sub with
    | none =>
      simp only [parseTokens, Except.ok.injEq] at hp
      rw [← hp] at hmem
      rcases List.mem_append.1 hmem with hmem | hmem
      · exact hres sel hmem
      · rw [List.mem_singleton.1 hmem]; exact htop
    | some s =>
      simp only [parseTokens, Except.ok.injEq] at hp
      rw [← hp] at hmem
      rcases List.mem_append.1 hmem with hmem | hmem
      · exact hres sel hmem
      · rw [List.mem_singleton.1 hmem]
        obtain ⟨hsb, hse⟩ := hsub s rfl
        exact wfSel_close htop hsb hse
  | cons t ts ih =>
    intro results top sub sels htok hres htop hsub hp sel hmem
    have htokt : tokOK t = true := htok t (by simp)
    have htokr : ∀ t2 ∈ ts, tokOK t2 = true := fun t2 h2 => htok t2 (by simp [h2])
    cases t with
    | notOpen =>
      cases sub with
      | some s => simp [parseTokens] at hp
      | none =>
        refine ih results top (some .empty) sels htokr hres htop ?_
          (by simpa [parseTokens] using hp) sel hmem
        intro s hs
        rw [(Option.some.injEq _ _).mp hs.symm]
        exact ⟨rfl, rfl⟩
    | tag p b =>
      cases sub with
      | none =>
        obtain ⟨hb2, hn2⟩ := applyTag_wf htokt (wfSel_parts htop).1
        refine ih results (applyTag top p b) none sels htokr hres ?_
          (by simp) (by simpa [parseTokens] using hp) sel hmem
        simp only [wfSel, Bool.and_eq_true, hb2, hn2, true_and]
        exact (wfSel_parts htop).2
      | some s =>
        obtain ⟨hsb, hse⟩ := hsub s rfl
        obtain ⟨hb2, hn2⟩ := applyTag_wf htokt hsb
        refine ih results top (some (applyTag s p b)) sels htokr hres htop ?_
          (by simpa [parseTokens] using hp) sel hmem
        intro s2 hs2
        rw [(Option.some.injEq _ _).mp hs2.symm]
        exact ⟨hb2, by rw [hn2, hse]⟩
    | attr n v =>
      have hattr : strNE n = true ∧ strAll isAttrNameChar n = true ∧
          strAll isValueChar v = true := by
        simpa [tokOK, Bool.and_eq_true, and_assoc] using htokt
      obtain ⟨ha1, ha2, ha3⟩ := hattr
      cases sub with
      | none =>
        obtain ⟨hb2, hn2⟩ := addAttribute_wf (wfSel_parts htop).1 ha1 ha2 ha3
        refine ih results (top.addAttribute n v) none sels htokr hres ?_
          (by simp) (by simpa [parseTokens] using hp) sel hmem
        simp only [wfSel, Bool.and_eq_true, hb2, hn2, true_and]
        exact (wfSel_parts htop).2
      | some s =>
        obtain ⟨hsb, hse⟩ := hsub s rfl
        obtain ⟨hb2, hn2⟩ := addAttribute_wf hsb ha1 ha2 ha3
        refine ih results top (some (s.addAttribute n v)) sels htokr hres htop ?_
          (by simpa [parseTokens] using hp) sel hmem
        intro s2 hs2
        rw [(Option.some.injEq _ _).mp hs2.symm]
        exact ⟨hb2, by rw [hn2, hse]⟩
    | rparen =>
      cases sub with
      | none =>
        exact ih results top none sels htokr hres htop (by simp)
          (by simpa [parseTokens] using hp) sel hmem
      | some s =>
        obtain ⟨hsb, hse⟩ := hsub s rfl
        exact ih results (top.pushNot s) none sels htokr hres
          (wfSel_close htop hsb hse) (by simp)
          (by simpa [parseTokens] using hp) sel hmem
    | comma =>
      cases sub with
      | some s => simp [parseTokens] at hp
      | none =>
        refine ih (results ++ [top]) .empty none sels htokr ?_ rfl (by simp)
          (by simpa [parseTokens] using hp) sel hmem
        intro r hr
        rcases List.mem_append.1 hr with hr | hr
        · exact hres r hr
        · rw [List.mem_singleton.1 hr]; exact htop

/-- Every selector returned by `parse` satisfies the image invariant. -/
theorem parse_wf {s : String} {sels : List CssSelector}
    (h : CssSelector.parse s = .ok sels) : ∀ sel ∈ sels, wfSel sel = true := by
  refine parseTokens_wf (lexSel s) [] .empty none sels ?_ (by simp) rfl ?_ h
  · exact fun t ht => lexSel_tokOK ht
  · intro s hs; cases hs

end NgMorph

namespace NgMorph

/-! ## Claim C4 — lower-casing at parse time -/

theorem baseOK_lowerParts {sel : CssSelector} (h : baseOK sel = true) :
    lowerPartsB sel = true := by
  simp only [baseOK, Bool.and_eq_true] at h
  obtain ⟨⟨⟨helem, hcls⟩, heven⟩, hpairs⟩ := h
  simp only [lowerPartsB, Bool.and_eq_true]
  constructor
  · rw [List.all_eq_true] at hcls ⊢
    intro c hcmem
    have hc := hcls c hcmem
    simp only [classOK, Bool.and_eq_true] at hc
    exact hc.2
  · rw [List.all_eq_true] at hpairs ⊢
    intro p hpmem
    have hp := hpairs p hpmem
    simp only [attrPairOK, Bool.and_eq_true] at hp
    exact hp.2

/-- Claim C4, as stated, is false: attribute *names* are stored as written,
not lower-cased, at parse time — `Parse("[A]")` stores the attribute name
`"A"`, which the case mapping does not fix.  (Names are lower-cased only
during matching.) -/
theorem claim_C4_counterexample :
    CssSelector.parse "[A]" = .ok [⟨none, [], ["A", ""], []⟩] ∧
      jsToLower "A" ≠ "A" := by
  exact ⟨rfl, by decide⟩

/-- Claim C4 (amended): after a successful parse, every class name and every
attribute *value* stored in each returned selector — including inside its
`notSelectors` — is lower-case (fixed by the case mapping); attribute names
are stored as written and lower-cased only at match time. -/
theorem claim_C4_amended (s : String) (sels : List CssSelector)
    (h : CssSelector.parse s = .ok sels) :
    ∀ sel ∈ sels, lowerPartsB sel = true ∧
      ∀ t ∈ sel.notSelectors, lowerPartsB t = true := by
  intro sel hmem
  have hwf := parse_wf h sel hmem
  obtain ⟨hb, hnots⟩ := wfSel_parts hwf
  refine ⟨baseOK_lowerParts hb, ?_⟩
  intro t ht
  rw [List.all_eq_true] at hnots
  have := hnots t ht
  simp only [Bool.and_eq_true] at this
  exact baseOK_lowerParts this.1

/-- Witness for C4 (amended): the selector parsed from `".A[B=C]"` — class
`"a"` and attribute value `"c"` are lower-cased, name `"B"` is kept. -/
theorem claim_C4_witness :
    lowerPartsB ⟨none, ["a"], ["B", "c"], []⟩ = true ∧
      CssSelector.parse ".A[B=C]" = .ok [⟨none, ["a"], ["B", "c"], []⟩] := by
  refine ⟨?_, rfl⟩
  exact (claim_C4_amended ".A[B=C]" [⟨none, ["a"], ["B", "c"], []⟩] rfl
    ⟨none, ["a"], ["B", "c"], []⟩ (List.mem_singleton.mpr rfl)).1

end NgMorph

namespace NgMorph

/-! ## Lexer infrastructure for the round-trip proof -/

theorem length_dropWhile_le {α : Type} (p : α → Bool) (l : List α) :
    (l.dropWhile p).length ≤ l.length := by
  induction l with
  | nil => simp
  | cons a r ih =>
    by_cases h : p a
    · rw [List.dropWhile_cons_of_pos h]; simpa using Nat.le_succ_of_le ih
    · rw [List.dropWhile_cons_of_neg h]

/-- Every successful match consumes at least one character. -/
theorem matchAt_consumes {l : List Char} {t : SelToken} {r : List Char}
    (h : matchAt l = some (t, r)) : r.length < l.length := by
  cases l with
  | nil => simp [matchAt] at h
  | cons c rest =>
    simp only [matchAt] at h
    split_ifs at h with h1 h2 h3 h4 h5
    · unfold matchNot at h
      split at h
      all_goals try exact Option.noConfusion h
      simp only [Option.some.injEq, Prod.mk.injEq] at h
      rw [← h.2]
      simp only [List.length_cons]
      omega
    · unfold matchPrefTag at h
      split at h
      all_goals try exact Option.noConfusion h
      simp only [Option.some.injEq, Prod.mk.injEq] at h
      rw [← h.2]
      have := length_dropWhile_le isTagChar rest
      simp only [List.length_cons]
      omega
    · simp only [Option.some.injEq, Prod.mk.injEq] at h
      rw [← h.2]
      have := length_dropWhile_le isTagChar rest
      simp only [List.length_cons]
      omega
    · unfold matchAttr at h
      have hnm := length_dropWhile_le isAttrNameChar rest
      split at h
      all_goals try exact Option.noConfusion h
      split at h
      all_goals try exact Option.noConfusion h
      · rename_i r2 heq
        simp only [Option.some.injEq, Prod.mk.injEq] at h
        rw [← h.2]
        have hlen : (']' :: r2).length ≤ rest.length := heq ▸ hnm
        simp only [List.length_cons] at hlen ⊢
        omega
      · rename_i q r3 heq
        have hr3 : ('=' :: q :: r3).length ≤ rest.length := heq ▸ hnm
        simp only [List.length_cons] at hr3
        split at h
        · have hv := length_dropWhile_le isValueChar r3
          split at h
          all_goals try exact Option.noConfusion h
          rename_i q2 r5 heq2
          split at h
          all_goals try exact Option.noConfusion h
          simp only [Option.some.injEq, Prod.mk.injEq] at h
          rw [← h.2]
          have hlen : (q2 :: ']' :: r5).length ≤ r3.length := heq2 ▸ hv
          simp only [List.length_cons] at hlen ⊢
          omega
        · have hv := length_dropWhile_le isValueChar (q :: r3)
          split at h
          all_goals try exact Option.noConfusion h
          rename_i r5 heq2
          simp only [Option.some.injEq, Prod.mk.injEq] at h
          rw [← h.2]
          have hlen : (']' :: r5).length ≤ (q :: r3).length := heq2 ▸ hv
          simp only [List.length_cons] at hlen ⊢
          omega
    · simp only [Option.some.injEq, Prod.mk.injEq] at h
      rw [← h.2]
      simp
    · unfold matchComma at h
      have hws := length_dropWhile_le isWsChar (c :: rest)
      split at h
      all_goals try exact Option.noConfusion h
      rename_i r2 heq
      simp only [Option.some.injEq, Prod.mk.injEq] at h
      rw [← h.2]
      have h2ws := length_dropWhile_le isWsChar r2
      have hlen : (',' :: r2).length ≤ (c :: rest).length := heq ▸ hws
      simp only [List.length_cons] at hlen ⊢
      omega

theorem lexAux_fuel_irrel :
    ∀ (f1 f2 : Nat) (l : List Char), l.length ≤ f1 → l.length ≤ f2 →
      lexAux f1 l = lexAux f2 l := by
  intro f1
  induction f1 with
  | zero =>
    intro f2 l h1 h2
    cases l with
    | nil => cases f2 <;> rfl
    | cons c r => simp at h1
  | succ f ih =>
    intro f2 l h1 h2
    cases l with
    | nil => cases f2 <;> rfl
    | cons c rest =>
      cases f2 with
      | zero => simp at h2
      | succ f2 =>
        unfold lexAux
        cases hm : matchAt (c :: rest) with
        | none =>
          simp only [List.length_cons] at h1 h2
          exact ih f2 rest (by omega) (by omega)
        | some pr =>
          obtain ⟨t0, r0⟩ := pr
          have hc := matchAt_consumes hm
          simp only [List.length_cons] at h1 h2 hc
          show t0 :: lexAux f r0 = t0 :: lexAux f2 r0
          rw [ih f2 r0 (by omega) (by omega)]

theorem lexAux_fuel_ge {f : Nat} {l : List Char} (h : l.length ≤ f) :
    lexAux f l = lexList l :=
  lexAux_fuel_irrel f l.length l h (le_refl _)

theorem lexList_step {l r : List Char} {t : SelToken}
    (h : matchAt l = some (t, r)) : lexList l = t :: lexList r := by
  cases l with
  | nil => simp [matchAt] at h
  | cons c cs =>
    have hlt := matchAt_consumes h
    simp only [List.length_cons] at hlt
    show lexAux (c :: cs).length (c :: cs) = _
    simp only [List.length_cons]
    unfold lexAux
    rw [h]
    show t :: lexAux cs.length r = t :: lexList r
    rw [lexAux_fuel_ge (by omega)]

theorem lexList_nil : lexList [] = [] := rfl

theorem lexSel_eq_lexList (s : String) : lexSel s = lexList s.data := rfl

end NgMorph

namespace NgMorph

/-! ## Chunk lemmas: how the lexer scans serialized pieces -/

theorem takeWhile_chunk {p : Char → Bool} {body r : List Char}
    (hall : body.all p = true) (hr : headFails p r) :
    (body ++ r).takeWhile p = body ∧ (body ++ r).dropWhile p = r := by
  constructor
  · rw [List.takeWhile_append_of_pos (by simpa [List.all_eq_true] using hall)]
    cases r with
    | nil => simp
    | cons d rr =>
      simp only [headFails] at hr
      have hnd : ¬ p d = true := by simp [hr]
      rw [List.takeWhile_cons_of_neg hnd]
      simp
  · rw [List.dropWhile_append_of_pos (by simpa [List.all_eq_true] using hall)]
    cases r with
    | nil => simp
    | cons d rr =>
      simp only [headFails] at hr
      have hnd : ¬ p d = true := by simp [hr]
      rw [List.dropWhile_cons_of_neg hnd]

theorem tagChar_not_special {c : Char} (h : isTagChar c = true) :
    c ≠ ':' ∧ c ≠ '.' ∧ c ≠ '#' := by
  refine ⟨?_, ?_, ?_⟩ <;> intro heq <;> rw [heq] at h <;> exact absurd h (by decide)

theorem valueChar_not_quote {c : Char} (h : isValueChar c = true) :
    isQuoteChar c = false := by
  simp [isValueChar] at h
  simp [isQuoteChar]
  omega

theorem matchAt_notOpen (r : List Char) :
    matchAt (':' :: 'n' :: 'o' :: 't' :: '(' :: r) = some (.notOpen, r) := rfl

theorem matchAt_rparen (r : List Char) : matchAt (')' :: r) = some (.rparen, r) := rfl

theorem matchAt_tagChunk {body r : List Char} (hne : body ≠ [])
    (hall : body.all isTagChar = true) (hr : headFails isTagChar r) :
    matchAt (body ++ r) = some (.tag none ⟨body⟩, r) := by
  cases body with
  | nil => exact absurd rfl hne
  | cons c cs =>
    simp only [List.all_cons, Bool.and_eq_true] at hall
    obtain ⟨hc, hcs⟩ := hall
    obtain ⟨h1, h2, h3⟩ := tagChar_not_special hc
    obtain ⟨ht, hd⟩ := @takeWhile_chunk isTagChar cs r hcs hr
    simp only [List.cons_append, matchAt]
    rw [if_neg h1, if_neg (by simp [h2, h3]), if_pos hc, ht, hd]

theorem matchAt_prefChunk {pc : Char} {body r : List Char} (hpc : pc = '.' ∨ pc = '#')
    (hne : body ≠ []) (hall : body.all isTagChar = true) (hr : headFails isTagChar r) :
    matchAt (pc :: (body ++ r)) = some (.tag (some pc) ⟨body⟩, r) := by
  have hpcne : ¬(pc = ':') := by rcases hpc with rfl | rfl <;> decide
  obtain ⟨ht, hd⟩ := @takeWhile_chunk isTagChar body r hall hr
  simp only [matchAt]
  rw [if_neg hpcne, if_pos (by rcases hpc with rfl | rfl <;> simp)]
  unfold matchPrefTag
  rw [ht, hd, if_neg (by simpa [List.isEmpty_iff] using hne)]

theorem matchAt_attrChunkNoVal {name r : List Char} (hne : name ≠ [])
    (hall : name.all isAttrNameChar = true) :
    matchAt ('[' :: (name ++ ']' :: r)) = some (.attr ⟨name⟩ "", r) := by
  obtain ⟨ht, hd⟩ := @takeWhile_chunk isAttrNameChar name (']' :: r) hall (by simp only [headFails]; decide)
  show matchAttr (name ++ ']' :: r) = some (.attr ⟨name⟩ "", r)
  unfold matchAttr
  rw [ht, hd, if_neg (by simpa [List.isEmpty_iff] using hne)]
  simp

theorem matchAt_attrChunkVal {name value r : List Char} (hne : name ≠ [])
    (hall : name.all isAttrNameChar = true) (hvall : value.all isValueChar = true) :
    matchAt ('[' :: (name ++ '=' :: (value ++ ']' :: r))) =
      some (.attr ⟨name⟩ ⟨value⟩, r) := by
  obtain ⟨ht, hd⟩ :=
    @takeWhile_chunk isAttrNameChar name ('=' :: (value ++ ']' :: r)) hall (by simp only [headFails]; decide)
  show matchAttr (name ++ '=' :: (value ++ ']' :: r)) = some (.attr ⟨name⟩ ⟨value⟩, r)
  unfold matchAttr
  rw [ht, hd, if_neg (by simpa [List.isEmpty_iff] using hne)]
  cases value with
  | nil =>
    have hdv : (']' :: r).dropWhile isValueChar = ']' :: r :=
      List.dropWhile_cons_of_neg (by decide)
    have htv : (']' :: r).takeWhile isValueChar = [] :=
      List.takeWhile_cons_of_neg (by decide)
    have hqb : isQuoteChar ']' = false := by decide
    simp only [List.nil_append]
    simp [hdv, htv, hqb]
  | cons v0 vrest =>
    simp only [List.all_cons, Bool.and_eq_true] at hvall
    obtain ⟨hv0, hvr⟩ := hvall
    have hq : isQuoteChar v0 = false := valueChar_not_quote hv0
    have hbody : (v0 :: vrest).all isValueChar = true := by simp [hv0, hvr]
    obtain ⟨htv, hdv⟩ :=
      @takeWhile_chunk isValueChar (v0 :: vrest) (']' :: r) hbody (by simp only [headFails]; decide)
    simp only [List.cons_append] at htv hdv
    simp only [List.cons_append]
    simp [hq, hdv, htv]

end NgMorph

namespace NgMorph

theorem classesStr_data :
    ∀ (cls : List String) (acc : String),
      (cls.foldl (fun r k => r ++ "." ++ k) acc).data =
        acc.data ++ cls.flatMap (fun c => '.' :: c.data) := by
  intro cls
  induction cls with
  | nil => intro acc; simp
  | cons c rest ih =>
    intro acc
    simp only [List.foldl_cons, List.flatMap_cons]
    rw [ih]
    simp [String.data_append]

theorem strNE_ne {s : String} (h : strNE s = true) : s.data ≠ [] := by
  simpa [strNE, List.isEmpty_iff] using h

/-! ## Lexing the serialized pieces -/

theorem lexList_elemChunk {el : Option String} (he : elemOK el = true)
    {r : List Char} (hr : headFails isTagChar r) :
    lexList ((el.getD "").data ++ r) = elemToks el ++ lexList r := by
  cases el with
  | none => simp [elemToks]
  | some e =>
    simp only [elemOK, Bool.and_eq_true] at he
    obtain ⟨hne, hall⟩ := he
    simp only [Option.getD_some, elemToks]
    rw [lexList_step (matchAt_tagChunk (strNE_ne hne) hall hr)]
    rfl

theorem lexList_classChunks :
    ∀ (cls : List String), (∀ c ∈ cls, classOK c = true) →
      ∀ (r : List Char), headFails isTagChar r →
        lexList (cls.flatMap (fun c => '.' :: c.data) ++ r) =
          classToks cls ++ lexList r := by
  intro cls
  induction cls with
  | nil => intro _ r _; simp [classToks]
  | cons c rest ih =>
    intro hwf r hr
    have hc := hwf c (by simp)
    simp only [classOK, Bool.and_eq_true] at hc
    obtain ⟨⟨hne, hall⟩, hlow⟩ := hc
    have hbound : headFails isTagChar (rest.flatMap (fun c => '.' :: c.data) ++ r) := by
      cases rest with
      | nil => simpa using hr
      | cons c2 r2 =>
        simp only [List.flatMap_cons, List.cons_append, headFails]
        decide
    simp only [List.flatMap_cons, List.cons_append, List.append_assoc]
    rw [lexList_step
      (@matchAt_prefChunk '.' c.data (rest.flatMap (fun c => '.' :: c.data) ++ r)
        (Or.inl rfl) (strNE_ne hne) hall hbound)]
    rw [ih (fun c2 h2 => hwf c2 (by simp [h2])) r hr]
    rfl

theorem attrsStr_data_head :
    ∀ (ats : List String), evenAttrs ats = true →
      ∀ (r : List Char), headFails isTagChar r →
        headFails isTagChar ((attrsStr ats).data ++ r)
  | [], _, r, hr => by simpa [attrsStr] using hr
  | [n], h, _, _ => by simp [evenAttrs] at h
  | n :: v :: rest, h, r, hr => by
    simp only [attrsStr, String.data_append]
    simp only [List.cons_append, List.append_assoc]
    show headFails isTagChar ('[' :: _)
    simp only [headFails]
    decide

theorem lexList_attrChunks :
    ∀ (ats : List String), evenAttrs ats = true →
      (attrPairs ats).all attrPairOK = true →
      ∀ (r : List Char),
        lexList ((attrsStr ats).data ++ r) = attrToks ats ++ lexList r
  | [], _, _, r => by simp [attrsStr, attrToks]
  | [n], h, _, _ => by simp [evenAttrs] at h
  | n :: v :: rest, heven, hpairs, r => by
    have heven2 : evenAttrs rest = true := by simpa [evenAttrs] using heven
    simp only [attrPairs, List.all_cons, Bool.and_eq_true] at hpairs
    obtain ⟨hpair, hrest⟩ := hpairs
    simp only [attrPairOK, Bool.and_eq_true] at hpair
    obtain ⟨⟨⟨hn, hna⟩, hv⟩, hlow⟩ := hpair
    by_cases hveq : v = ""
    · subst hveq
      simp only [attrsStr, attrToks]
      simp only [String.data_append, List.append_assoc, List.cons_append, List.nil_append]
      show lexList ('[' :: (n.data ++ ']' :: ((attrsStr rest).data ++ r))) =
        SelToken.attr n "" :: (attrToks rest ++ lexList r)
      rw [lexList_step (matchAt_attrChunkNoVal (strNE_ne hn) hna)]
      rw [lexList_attrChunks rest heven2 hrest r]
    · simp only [attrsStr, if_neg hveq, attrToks]
      simp only [String.data_append, List.append_assoc, List.cons_append, List.nil_append]
      rw [lexList_step (matchAt_attrChunkVal (strNE_ne hn) hna hv)]
      rw [lexList_attrChunks rest heven2 hrest r]

end NgMorph

namespace NgMorph

theorem headFails_classesAttrs {cls ats : List String} {r : List Char}
    (heven : evenAttrs ats = true) (hr : headFails isTagChar r) :
    headFails isTagChar
      (cls.flatMap (fun c => '.' :: c.data) ++ ((attrsStr ats).data ++ r)) := by
  cases cls with
  | nil => simpa using attrsStr_data_head ats heven r hr
  | cons c r2 =>
    simp only [List.flatMap_cons, List.cons_append, headFails]
    decide

theorem classesStr_data_nilacc (cls : List String) :
    (classesStr cls).data = cls.flatMap (fun c => '.' :: c.data) := by
  have h := classesStr_data cls ""
  simpa [classesStr] using h

theorem lexList_baseParts {el : Option String} {cls ats : List String}
    (he : elemOK el = true) (hcls : cls.all classOK = true)
    (heven : evenAttrs ats = true) (hpairs : (attrPairs ats).all attrPairOK = true)
    (r : List Char) (hr : headFails isTagChar r) :
    lexList ((el.getD "").data ++ ((classesStr cls).data ++ ((attrsStr ats).data ++ r))) =
      elemToks el ++ (classToks cls ++ (attrToks ats ++ lexList r)) := by
  rw [classesStr_data_nilacc]
  have hb1 : headFails isTagChar
      (cls.flatMap (fun c => '.' :: c.data) ++ ((attrsStr ats).data ++ r)) :=
    headFails_classesAttrs heven hr
  rw [lexList_elemChunk he hb1]
  rw [lexList_classChunks cls (by simpa [List.all_eq_true] using hcls) _
    (attrsStr_data_head ats heven r hr)]
  rw [lexList_attrChunks ats heven hpairs r]

theorem data_notOpen : (":not(" : String).data = [':', 'n', 'o', 't', '('] := rfl

theorem lexList_notsChunks :
    ∀ (nots : List CssSelector), (∀ t ∈ nots, baseOK t = true ∧ t.notSelectors = []) →
      ∀ (r : List Char),
        lexList ((notsStr nots).data ++ r) =
          nots.flatMap (fun t => .notOpen :: (baseToks t ++ [.rparen])) ++ lexList r := by
  intro nots
  induction nots with
  | nil => intro _ r; simp [notsStr]
  | cons t rest ih =>
    intro hwf r
    obtain ⟨hbt, hnt⟩ := hwf t (by simp)
    obtain ⟨el, cls, ats, nt⟩ := t
    have hnt2 : nt = [] := by simpa [CssSelector.notSelectors] using hnt
    subst hnt2
    have hparts : elemOK el = true ∧ cls.all classOK = true ∧ evenAttrs ats = true ∧
        (attrPairs ats).all attrPairOK = true := by
      simpa [baseOK, CssSelector.element, CssSelector.classNames, CssSelector.attrs,
        Bool.and_eq_true, and_assoc] using hbt
    obtain ⟨he, hcls, heven, hpairs⟩ := hparts
    simp only [notsStr, CssSelector.toStr, String.data_append, List.append_assoc,
      List.flatMap_cons, data_notOpen, List.cons_append]
    rw [lexList_step (matchAt_notOpen _)]
    have hrp : headFails isTagChar
        (')' :: ((notsStr rest).data ++ r)) := by
      simp only [headFails]; decide
    simp only [List.nil_append]
    rw [lexList_baseParts he hcls heven hpairs (')' :: ((notsStr rest).data ++ r)) hrp]
    rw [lexList_step (matchAt_rparen _)]
    rw [ih (fun t2 h2 => hwf t2 (by simp [h2])) r]
    simp [baseToks, CssSelector.element, CssSelector.classNames, CssSelector.attrs]

/-- Lexing the serialization of a well-formed selector yields exactly its
token list. -/
theorem lexSel_toStr {sel : CssSelector} (hwf : wfSel sel = true) :
    lexSel (CssSelector.toStr sel) = tokListOf sel := by
  obtain ⟨hb, hnots⟩ := wfSel_parts hwf
  obtain ⟨el, cls, ats, nots⟩ := sel
  have hnall : ∀ t ∈ nots, baseOK t = true ∧ t.notSelectors = [] := by
    intro t ht
    rw [List.all_eq_true] at hnots
    have := hnots t (by simpa [CssSelector.notSelectors] using ht)
    simp only [Bool.and_eq_true, List.isEmpty_iff] at this
    exact this
  have hparts : elemOK el = true ∧ cls.all classOK = true ∧ evenAttrs ats = true ∧
      (attrPairs ats).all attrPairOK = true := by
    simpa [baseOK, CssSelector.element, CssSelector.classNames, CssSelector.attrs,
      Bool.and_eq_true, and_assoc] using hb
  obtain ⟨he, hcls, heven, hpairs⟩ := hparts
  rw [lexSel_eq_lexList]
  simp only [CssSelector.toStr, String.data_append, List.append_assoc,
    CssSelector.element, CssSelector.classNames, CssSelector.attrs,
    CssSelector.notSelectors]
  have hnhead : headFails isTagChar ((notsStr nots).data ++ []) := by
    cases nots with
    | nil => simp [notsStr, headFails]
    | cons t rest =>
      simp only [notsStr, String.data_append, data_notOpen, List.cons_append, headFails]
      decide
  have hmain := lexList_baseParts he hcls heven hpairs ((notsStr nots).data ++ []) hnhead
  rw [show ((notsStr nots).data ++ ([] : List Char)) = (notsStr nots).data from by simp]
    at hmain
  rw [hmain]
  have hnn := lexList_notsChunks nots hnall []
  rw [show ((notsStr nots).data ++ ([] : List Char)) = (notsStr nots).data from by simp]
    at hnn
  rw [hnn]
  simp [tokListOf, baseToks, CssSelector.element, CssSelector.classNames,
    CssSelector.attrs, CssSelector.notSelectors, lexList_nil]

end NgMorph

namespace NgMorph

theorem parseTokens_simple_top :
    ∀ (toks : List SelToken), (∀ t ∈ toks, isSimpleTok t = true) →
      ∀ (ts : List SelToken) (results : List CssSelector) (top : CssSelector),
        parseTokens (toks ++ ts) results top none =
          parseTokens ts results (toks.foldl applyTok top) none := by
  intro toks
  induction toks with
  | nil => intro _ ts results top; simp
  | cons t toks ih =>
    intro hs ts results top
    cases t with
    | tag p b =>
      simp only [List.cons_append, parseTokens, List.foldl_cons, applyTok]
      exact ih (fun t2 h2 => hs t2 (by simp [h2])) ts results (applyTag top p b)
    | attr n v =>
      simp only [List.cons_append, parseTokens, List.foldl_cons, applyTok]
      exact ih (fun t2 h2 => hs t2 (by simp [h2])) ts results (top.addAttribute n v)
    | notOpen =>
      have h0 := hs SelToken.notOpen (by simp)
      simp [isSimpleTok] at h0
    | rparen =>
      have h0 := hs SelToken.rparen (by simp)
      simp [isSimpleTok] at h0
    | comma =>
      have h0 := hs SelToken.comma (by simp)
      simp [isSimpleTok] at h0

theorem parseTokens_simple_sub :
    ∀ (toks : List SelToken), (∀ t ∈ toks, isSimpleTok t = true) →
      ∀ (ts : List SelToken) (results : List CssSelector) (top s : CssSelector),
        parseTokens (toks ++ ts) results top (some s) =
          parseTokens ts results top (some (toks.foldl applyTok s)) := by
  intro toks
  induction toks with
  | nil => intro _ ts results top s; simp
  | cons t toks ih =>
    intro hs ts results top s
    cases t with
    | tag p b =>
      simp only [List.cons_append, parseTokens, List.foldl_cons, applyTok]
      exact ih (fun t2 h2 => hs t2 (by simp [h2])) ts results top (applyTag s p b)
    | attr n v =>
      simp only [List.cons_append, parseTokens, List.foldl_cons, applyTok]
      exact ih (fun t2 h2 => hs t2 (by simp [h2])) ts results top (s.addAttribute n v)
    | notOpen =>
      have h0 := hs SelToken.notOpen (by simp)
      simp [isSimpleTok] at h0
    | rparen =>
      have h0 := hs SelToken.rparen (by simp)
      simp [isSimpleTok] at h0
    | comma =>
      have h0 := hs SelToken.comma (by simp)
      simp [isSimpleTok] at h0

theorem baseToks_simple (sel : CssSelector) : ∀ t ∈ baseToks sel, isSimpleTok t = true := by
  intro t ht
  simp only [baseToks, List.mem_append] at ht
  rcases ht with (ht | ht) | ht
  · cases hsel : sel.element with
    | none => rw [hsel] at ht; simp [elemToks] at ht
    | some e =>
      rw [hsel] at ht
      simp only [elemToks, List.mem_singleton] at ht
      rw [ht]; rfl
  · simp only [classToks, List.mem_map] at ht
    obtain ⟨c, _, hc⟩ := ht
    rw [← hc]; rfl
  · generalize sel.attrs = ats at ht
    induction ats using attrToks.induct with
    | case1 => simp [attrToks] at ht
    | case2 n => simp only [attrToks, List.mem_singleton] at ht; rw [ht]; rfl
    | case3 n v r ih2 =>
      simp only [attrToks, List.mem_cons] at ht
      rcases ht with rfl | ht
      · rfl
      · exact ih2 ht

theorem lowerInvB_eq {s : String} (h : lowerInvB s = true) : jsToLower s = s := by
  simpa [lowerInvB] using h

theorem foldl_classToks :
    ∀ (cls : List String), (∀ c ∈ cls, lowerInvB c = true) →
      ∀ (el : Option String) (cls0 ats : List String) (nots : List CssSelector),
        (classToks cls).foldl applyTok ⟨el, cls0, ats, nots⟩ = ⟨el, cls0 ++ cls, ats, nots⟩ := by
  intro cls
  induction cls with
  | nil => intro _ el cls0 ats nots; simp [classToks]
  | cons c rest ih =>
    intro hlow el cls0 ats nots
    have hc : jsToLower c = c := lowerInvB_eq (hlow c (by simp))
    simp only [classToks, List.map_cons, List.foldl_cons, applyTok, applyTag]
    rw [if_pos trivial]
    rw [if_neg (show ¬ (Char.ofNat 46 = Char.ofNat 35) from by decide)]
    simp only [CssSelector.addClassName, hc]
    rw [show classToks rest = rest.map (fun c => SelToken.tag (some '.') c) from rfl] at ih
    rw [ih (fun c2 h2 => hlow c2 (by simp [h2])) el (cls0 ++ [c]) ats nots]
    simp

theorem foldl_attrToks :
    ∀ (ats2 : List String), evenAttrs ats2 = true →
      (∀ p ∈ attrPairs ats2, lowerInvB p.2 = true) →
      ∀ (el : Option String) (cls0 ats : List String) (nots : List CssSelector),
        (attrToks ats2).foldl applyTok ⟨el, cls0, ats, nots⟩ = ⟨el, cls0, ats ++ ats2, nots⟩
  | [], _, _, el, cls0, ats, nots => by simp [attrToks]
  | [n], h, _, _, _, _, _ => by simp [evenAttrs] at h
  | n :: v :: rest, heven, hlow, el, cls0, ats, nots => by
    have hv : jsToLower v = v := lowerInvB_eq (hlow (n, v) (by simp [attrPairs]))
    simp only [attrToks, List.foldl_cons, applyTok, CssSelector.addAttribute, hv]
    rw [foldl_attrToks rest (by simpa [evenAttrs] using heven)
      (fun p hp => hlow p (by simp [attrPairs, hp])) el cls0 (ats ++ [n, v]) nots]
    simp

theorem foldl_baseToks {el : Option String} {cls ats : List String}
    {nots : List CssSelector}
    (hcls : ∀ c ∈ cls, lowerInvB c = true)
    (heven : evenAttrs ats = true)
    (hlow : ∀ p ∈ attrPairs ats, lowerInvB p.2 = true) :
    (baseToks ⟨el, cls, ats, nots⟩).foldl applyTok .empty = ⟨el, cls, ats, []⟩ := by
  simp only [baseToks, CssSelector.element, CssSelector.classNames, CssSelector.attrs]
  rw [List.foldl_append, List.foldl_append]
  have helem : (elemToks el).foldl applyTok .empty =
      (⟨el, [], [], []⟩ : CssSelector) := by
    cases el with
    | none => rfl
    | some e => rfl
  rw [helem, foldl_classToks cls hcls el [] [] []]
  simp only [List.nil_append]
  rw [foldl_attrToks ats heven hlow el cls [] []]
  simp

theorem parseTokens_notGroup {t : CssSelector} (hbt : baseOK t = true)
    (hnt : t.notSelectors = [])
    (hlowc : ∀ c ∈ t.classNames, lowerInvB c = true)
    (heven : evenAttrs t.attrs = true)
    (hlowa : ∀ p ∈ attrPairs t.attrs, lowerInvB p.2 = true) :
    ∀ (ts : List SelToken) (results : List CssSelector) (top : CssSelector),
      parseTokens ((.notOpen :: (baseToks t ++ [.rparen])) ++ ts) results top none =
        parseTokens ts results (top.pushNot t) none := by
  obtain ⟨el, cls, ats, nt⟩ := t
  have hnt2 : nt = [] := by simpa [CssSelector.notSelectors] using hnt
  subst hnt2
  intro ts results top
  have step1 : parseTokens
      ((SelToken.notOpen :: (baseToks (CssSelector.mk el cls ats []) ++ [SelToken.rparen])) ++ ts)
      results top none =
      parseTokens ((baseToks (CssSelector.mk el cls ats []) ++ [SelToken.rparen]) ++ ts)
        results top (some .empty) := rfl
  rw [step1, List.append_assoc]
  rw [parseTokens_simple_sub _ (baseToks_simple _) ([SelToken.rparen] ++ ts) results top .empty]
  rw [foldl_baseToks (by simpa [CssSelector.classNames] using hlowc)
    (by simpa [CssSelector.attrs] using heven) (by simpa [CssSelector.attrs] using hlowa)]
  rfl

theorem pushNot_foldl :
    ∀ (nots : List CssSelector) (el : Option String) (cls ats : List String)
      (nots0 : List CssSelector),
      nots.foldl CssSelector.pushNot ⟨el, cls, ats, nots0⟩ = ⟨el, cls, ats, nots0 ++ nots⟩ := by
  intro nots
  induction nots with
  | nil => intro el cls ats nots0; simp
  | cons t rest ih =>
    intro el cls ats nots0
    simp only [List.foldl_cons, CssSelector.pushNot]
    rw [ih el cls ats (nots0 ++ [t])]
    simp

theorem parseTokens_notGroups :
    ∀ (nots : List CssSelector),
      (∀ t ∈ nots, baseOK t = true ∧ t.notSelectors = [] ∧
        (∀ c ∈ t.classNames, lowerInvB c = true) ∧ evenAttrs t.attrs = true ∧
        (∀ p ∈ attrPairs t.attrs, lowerInvB p.2 = true)) →
      ∀ (results : List CssSelector) (top : CssSelector),
        parseTokens (nots.flatMap (fun t => .notOpen :: (baseToks t ++ [.rparen])))
            results top none =
          .ok (results ++ [nots.foldl CssSelector.pushNot top]) := by
  intro nots
  induction nots with
  | nil => intro _ results top; simp [parseTokens]
  | cons t rest ih =>
    intro hwf results top
    obtain ⟨hbt, hnt, hlc, hev, hla⟩ := hwf t (by simp)
    simp only [List.flatMap_cons]
    rw [parseTokens_notGroup hbt hnt hlc hev hla]
    rw [ih (fun t2 h2 => hwf t2 (by simp [h2])) results (top.pushNot t)]
    simp

end NgMorph

namespace NgMorph

theorem baseOK_rebuildFacts {sel : CssSelector} (h : baseOK sel = true) :
    (∀ c ∈ sel.classNames, lowerInvB c = true) ∧ evenAttrs sel.attrs = true ∧
      (∀ p ∈ attrPairs sel.attrs, lowerInvB p.2 = true) := by
  have hl := baseOK_lowerParts h
  simp only [lowerPartsB, Bool.and_eq_true, List.all_eq_true] at hl
  simp only [baseOK, Bool.and_eq_true] at h
  exact ⟨hl.1, h.1.2, hl.2⟩

/-- Feeding the token list of a serialized well-formed selector back into the
parse loop rebuilds exactly that selector. -/
theorem parseTokens_tokListOf {sel : CssSelector} (hwf : wfSel sel = true) :
    parseTokens (tokListOf sel) [] .empty none = .ok [sel] := by
  obtain ⟨hb, hnots⟩ := wfSel_parts hwf
  obtain ⟨hlc, hev, hla⟩ := baseOK_rebuildFacts hb
  have hwfn : ∀ t ∈ sel.notSelectors, baseOK t = true ∧ t.notSelectors = [] ∧
      (∀ c ∈ t.classNames, lowerInvB c = true) ∧ evenAttrs t.attrs = true ∧
      (∀ p ∈ attrPairs t.attrs, lowerInvB p.2 = true) := by
    intro t ht
    rw [List.all_eq_true] at hnots
    have h2 := hnots t ht
    simp only [Bool.and_eq_true, List.isEmpty_iff] at h2
    obtain ⟨hbt, hnt⟩ := h2
    obtain ⟨a, b, c⟩ := baseOK_rebuildFacts hbt
    exact ⟨hbt, hnt, a, b, c⟩
  obtain ⟨el, cls, ats, nots⟩ := sel
  simp only [tokListOf]
  rw [parseTokens_simple_top _ (baseToks_simple _) _ [] .empty]
  rw [foldl_baseToks (by simpa [CssSelector.classNames] using hlc)
    (by simpa [CssSelector.attrs] using hev)
    (by simpa [CssSelector.attrs] using hla)]
  simp only [CssSelector.notSelectors]
  rw [parseTokens_notGroups nots
    (by simpa [CssSelector.notSelectors] using hwfn) [] ⟨el, cls, ats, []⟩]
  rw [pushNot_foldl nots el cls ats []]
  simp

/-- C7: for every selector string the grammar accepts, Parse then Serialize
then Parse again is a semantic round-trip: parsing the serialized text of each
resulting selector succeeds and yields exactly that selector, so the combined
predicate set equals the first parse. -/
theorem claim_C7 (s : String) (sels : List CssSelector)
    (h : CssSelector.parse s = .ok sels) :
    ∀ sel ∈ sels, CssSelector.parse (CssSelector.toStr sel) = .ok [sel] := by
  intro sel hmem
  have hwf := parse_wf h sel hmem
  unfold CssSelector.parse
  rw [lexSel_toStr hwf]
  exact parseTokens_tokListOf hwf

end NgMorph

namespace NgMorph

theorem claim_C7_witness :
    CssSelector.parse (CssSelector.toStr
        (CssSelector.mk (some "div") ["foo"] ["A", "b"]
          [CssSelector.mk none ["x"] [] []])) =
      .ok [CssSelector.mk (some "div") ["foo"] ["A", "b"]
          [CssSelector.mk none ["x"] [] []]] :=
  claim_C7 "div.foo[A=b]:not(.x)"
    [CssSelector.mk (some "div") ["foo"] ["A", "b"] [CssSelector.mk none ["x"] [] []]]
    (by rfl)
    (CssSelector.mk (some "div") ["foo"] ["A", "b"] [CssSelector.mk none ["x"] [] []])
    (by simp)

end NgMorph
